import Mathlib

/-!
Shallow embedding of the core business logic of the AML UI backend
(src/aml_ui/services.py, with the timestamp helper from
src/aml_ui/data_access.py), together with proofs about it.

Python values loaded from JSON artifacts are modelled by the inductive
type `JVal`; Python floats and ints are both modelled by rationals
(non-finite floats are outside the model).  Python operations that can
raise on dirty data are modelled in the `Except PyErr` monad; operations
the source guards against failure are total.  Machine reals appear only
in the risk scorer, which mirrors the log-based formula of
`compute_risk_score` over the real numbers.
-/

namespace AmlUi

/-- Kinds of Python exceptions that the modelled operations can raise. -/
inductive PyErr where
  | attributeError
  | typeError
  | valueError (msg : String)
deriving DecidableEq, Repr

/-- Decidable equality for modelled results, used by concrete witness
evaluations. -/
def exceptDecEq [DecidableEq ε] [DecidableEq α] : DecidableEq (Except ε α) :=
  fun a b =>
    match a, b with
    | .ok x, .ok y =>
      if h : x = y then isTrue (h ▸ rfl)
      else isFalse (fun hh => h (Except.ok.inj hh))
    | .error x, .error y =>
      if h : x = y then isTrue (h ▸ rfl)
      else isFalse (fun hh => h (Except.error.inj hh))
    | .ok _, .error _ => isFalse (fun hh => Except.noConfusion hh)
    | .error _, .ok _ => isFalse (fun hh => Except.noConfusion hh)

instance [DecidableEq ε] [DecidableEq α] : DecidableEq (Except ε α) := exceptDecEq

/-- Model of a JSON-like Python value: None, bool, int/float (as a
rational), str, list, and dict (as an association list with unique keys,
in insertion order). -/
inductive JVal where
  | null
  | bool (b : Bool)
  | num (q : ℚ)
  | str (s : String)
  | arr (xs : List JVal)
  | obj (kvs : List (String × JVal))
deriving Repr

mutual

/-- Structural decidable equality on `JVal`, written by hand because
automatic derivation does not handle the nested lists. -/
def JVal.decEq : (a b : JVal) → Decidable (a = b)
  | .null, .null => isTrue rfl
  | .bool a, .bool b =>
    if h : a = b then isTrue (h ▸ rfl)
    else isFalse (fun hh => h (JVal.bool.inj hh))
  | .num a, .num b =>
    if h : a = b then isTrue (h ▸ rfl)
    else isFalse (fun hh => h (JVal.num.inj hh))
  | .str a, .str b =>
    if h : a = b then isTrue (h ▸ rfl)
    else isFalse (fun hh => h (JVal.str.inj hh))
  | .arr xs, .arr ys =>
    match JVal.decEqList xs ys with
    | isTrue h => isTrue (h ▸ rfl)
    | isFalse h => isFalse (fun hh => h (JVal.arr.inj hh))
  | .obj xs, .obj ys =>
    match JVal.decEqObj xs ys with
    | isTrue h => isTrue (h ▸ rfl)
    | isFalse h => isFalse (fun hh => h (JVal.obj.inj hh))
  | .null, .bool _ => isFalse (fun h => JVal.noConfusion h)
  | .null, .num _ => isFalse (fun h => JVal.noConfusion h)
  | .null, .str _ => isFalse (fun h => JVal.noConfusion h)
  | .null, .arr _ => isFalse (fun h => JVal.noConfusion h)
  | .null, .obj _ => isFalse (fun h => JVal.noConfusion h)
  | .bool _, .null => isFalse (fun h => JVal.noConfusion h)
  | .bool _, .num _ => isFalse (fun h => JVal.noConfusion h)
  | .bool _, .str _ => isFalse (fun h => JVal.noConfusion h)
  | .bool _, .arr _ => isFalse (fun h => JVal.noConfusion h)
  | .bool _, .obj _ => isFalse (fun h => JVal.noConfusion h)
  | .num _, .null => isFalse (fun h => JVal.noConfusion h)
  | .num _, .bool _ => isFalse (fun h => JVal.noConfusion h)
  | .num _, .str _ => isFalse (fun h => JVal.noConfusion h)
  | .num _, .arr _ => isFalse (fun h => JVal.noConfusion h)
  | .num _, .obj _ => isFalse (fun h => JVal.noConfusion h)
  | .str _, .null => isFalse (fun h => JVal.noConfusion h)
  | .str _, .bool _ => isFalse (fun h => JVal.noConfusion h)
  | .str _, .num _ => isFalse (fun h => JVal.noConfusion h)
  | .str _, .arr _ => isFalse (fun h => JVal.noConfusion h)
  | .str _, .obj _ => isFalse (fun h => JVal.noConfusion h)
  | .arr _, .null => isFalse (fun h => JVal.noConfusion h)
  | .arr _, .bool _ => isFalse (fun h => JVal.noConfusion h)
  | .arr _, .num _ => isFalse (fun h => JVal.noConfusion h)
  | .arr _, .str _ => isFalse (fun h => JVal.noConfusion h)
  | .arr _, .obj _ => isFalse (fun h => JVal.noConfusion h)
  | .obj _, .null => isFalse (fun h => JVal.noConfusion h)
  | .obj _, .bool _ => isFalse (fun h => JVal.noConfusion h)
  | .obj _, .num _ => isFalse (fun h => JVal.noConfusion h)
  | .obj _, .str _ => isFalse (fun h => JVal.noConfusion h)
  | .obj _, .arr _ => isFalse (fun h => JVal.noConfusion h)

/-- Decidable equality on lists of `JVal`. -/
def JVal.decEqList : (xs ys : List JVal) → Decidable (xs = ys)
  | [], [] => isTrue rfl
  | [], _ :: _ => isFalse (fun h => List.noConfusion h)
  | _ :: _, [] => isFalse (fun h => List.noConfusion h)
  | x :: xs, y :: ys =>
    match JVal.decEq x y, JVal.decEqList xs ys with
    | isTrue h1, isTrue h2 => isTrue (h1 ▸ h2 ▸ rfl)
    | isFalse h1, _ => isFalse (fun h => h1 (List.cons.inj h).1)
    | _, isFalse h2 => isFalse (fun h => h2 (List.cons.inj h).2)

/-- Decidable equality on dict entry lists. -/
def JVal.decEqObj : (xs ys : List (String × JVal)) → Decidable (xs = ys)
  | [], [] => isTrue rfl
  | [], _ :: _ => isFalse (fun h => List.noConfusion h)
  | _ :: _, [] => isFalse (fun h => List.noConfusion h)
  | (k1, v1) :: xs, (k2, v2) :: ys =>
    if h0 : k1 = k2 then
      match JVal.decEq v1 v2, JVal.decEqObj xs ys with
      | isTrue h1, isTrue h2 => isTrue (h0 ▸ h1 ▸ h2 ▸ rfl)
      | isFalse h1, _ =>
        isFalse (fun h => h1 (congrArg Prod.snd (List.cons.inj h).1))
      | _, isFalse h2 => isFalse (fun h => h2 (List.cons.inj h).2)
    else isFalse (fun h => h0 (congrArg Prod.fst (List.cons.inj h).1))

end

instance : DecidableEq JVal := JVal.decEq

/-- Python truthiness: None, False, 0, empty string, empty list and
empty dict are falsy; everything else is truthy. -/
def truthy : JVal → Bool
  | .null => false
  | .bool b => b
  | .num q => q != 0
  | .str s => s != ""
  | .arr xs => !xs.isEmpty
  | .obj kvs => !kvs.isEmpty

/-- Model of the Python expression `a or b`. -/
def pyOr (a b : JVal) : JVal := if truthy a then a else b

/-- Lookup in a dict (association list), returning a default when the
key is absent.  Models `dict.get(key, default)`. -/
def dictGetD (kvs : List (String × JVal)) (k : String) (d : JVal) : JVal :=
  match kvs.find? (fun kv => kv.1 == k) with
  | some kv => kv.2
  | none => d

/-- Model of `v.get(k, d)`: succeeds on dicts, raises AttributeError on
any other receiver. -/
def pyGetE (v : JVal) (k : String) (d : JVal) : Except PyErr JVal :=
  match v with
  | .obj kvs => .ok (dictGetD kvs k d)
  | _ => .error .attributeError

/-- Total fallback variant of `v.get(k)` used on the specification side
of theorems: non-dict receivers yield None instead of raising. -/
def objGetP (v : JVal) (k : String) : JVal :=
  match v with
  | .obj kvs => dictGetD kvs k .null
  | _ => .null

/-- Model of iterating a Python value with `for x in v`: lists yield
their elements, strings their one-character substrings, dicts their
keys; other values raise TypeError. -/
def asList : JVal → Except PyErr (List JVal)
  | .arr xs => .ok xs
  | .str s => .ok (s.data.map (fun c => .str c.toString))
  | .obj kvs => .ok (kvs.map (fun kv => .str kv.1))
  | _ => .error .typeError

/-- Model of `len(v)`: defined for lists, strings and dicts, TypeError
otherwise. -/
def pyLen : JVal → Except PyErr ℕ
  | .arr xs => .ok xs.length
  | .str s => .ok s.length
  | .obj kvs => .ok kvs.length
  | _ => .error .typeError

/-- Model of `isinstance(v, (int, float))`; true for bools as well,
because Python bool is a subclass of int. -/
def isNumberLike : JVal → Bool
  | .num _ => true
  | .bool _ => true
  | _ => false

/-- Numeric value of a number-like `JVal` (used after an `isNumberLike`
check, mirroring `float(x)` on a value known to be numeric). -/
def numValQ : JVal → ℚ
  | .num q => q
  | .bool b => if b then 1 else 0
  | _ => 0

/-- Hashability of a value: lists and dicts are unhashable and raise
TypeError when added to a set or used as a dict key. -/
def hashable : JVal → Bool
  | .arr _ => false
  | .obj _ => false
  | _ => true

/-- Insertion into a Python set, modelled as an ordered list of distinct
elements; raises TypeError on unhashable values. -/
def pySetAdd (s : List JVal) (v : JVal) : Except PyErr (List JVal) :=
  if hashable v then .ok (if v ∈ s then s else s ++ [v]) else .error .typeError

/-- Membership test `v in s` on a Python set; raises TypeError when the
probed value is unhashable. -/
def pySetIn (v : JVal) (s : List JVal) : Except PyErr Bool :=
  if hashable v then .ok (v ∈ s) else .error .typeError

/-- Pure set insertion used on the specification side of theorems. -/
def setInsert (s : List JVal) (v : JVal) : List JVal :=
  if v ∈ s then s else s ++ [v]

/-- Model of Python `str.lower()` over the character list (written so
that it evaluates by kernel reduction). -/
def strLower (s : String) : String := String.mk (s.data.map Char.toLower)

/-- Model of `v.lower()`: defined on strings only, AttributeError
otherwise. -/
def pyLowerStr (v : JVal) : Except PyErr String :=
  match v with
  | .str s => .ok (strLower s)
  | _ => .error .attributeError

/-- Model of Python slicing `v[:24]` as used for counterparty labels:
defined on strings and lists, TypeError otherwise. -/
def pySlice24 : JVal → Except PyErr JVal
  | .str s => .ok (.str (s.take 24))
  | .arr xs => .ok (.arr (xs.take 24))
  | _ => .error .typeError

/-- Sequential monadic map over `Except`, written as a plain recursion
so that proofs can proceed by structural induction. -/
def exMapM (f : α → Except PyErr β) : List α → Except PyErr (List β)
  | [] => .ok []
  | a :: as =>
    match f a with
    | .error e => .error e
    | .ok b =>
      match exMapM f as with
      | .error e => .error e
      | .ok bs => .ok (b :: bs)

/-- Sequential monadic fold over `Except`, written as a plain recursion
so that proofs can proceed by structural induction. -/
def exFoldlM (f : σ → α → Except PyErr σ) (init : σ) : List α → Except PyErr σ
  | [] => .ok init
  | a :: as =>
    match f init a with
    | .error e => .error e
    | .ok s => exFoldlM f s as

/-- Timestamps are modelled as an integer timeline (a linear order is
all the source relies on). -/
abbrev Time := ℤ

/-- Numeric value of a list of decimal digit characters. -/
def digitsVal (cs : List Char) : ℕ :=
  cs.foldl (fun n c => n * 10 + (c.toNat - 48)) 0

/-- True when the list is nonempty and consists of decimal digits. -/
def allDigits (cs : List Char) : Bool :=
  !cs.isEmpty && cs.all (·.isDigit)

/-- Modelled from the Python standard library collaborator
`datetime.fromisoformat` (the repository only calls it through
`parse_iso_datetime`): parses a basic ISO-8601 subset
`YYYY-MM-DD[{T| }HH:MM:SS[+HH:MM|-HH:MM]]` into a point on the integer
timeline, and rejects everything else.  No claim depends on the value
produced, only on success, failure, and the order of the results. -/
def fromisoformat (s : String) : Option Time :=
  match s.data with
  | y1 :: y2 :: y3 :: y4 :: '-' :: m1 :: m2 :: '-' :: d1 :: d2 :: rest =>
    if allDigits [y1, y2, y3, y4] && allDigits [m1, m2] && allDigits [d1, d2] then
      let y : ℤ := digitsVal [y1, y2, y3, y4]
      let m : ℤ := digitsVal [m1, m2]
      let d : ℤ := digitsVal [d1, d2]
      if 1 ≤ m ∧ m ≤ 12 ∧ 1 ≤ d ∧ d ≤ 31 then
        let dateVal : ℤ := ((y * 12 + m) * 31 + d) * 86400
        match rest with
        | [] => some dateVal
        | sep :: h1 :: h2 :: ':' :: n1 :: n2 :: ':' :: s1 :: s2 :: tz =>
          if (sep = 'T' || sep = ' ') && allDigits [h1, h2] &&
              allDigits [n1, n2] && allDigits [s1, s2] then
            let hh : ℤ := digitsVal [h1, h2]
            let nn : ℤ := digitsVal [n1, n2]
            let ss : ℤ := digitsVal [s1, s2]
            if hh ≤ 23 ∧ nn ≤ 59 ∧ ss ≤ 59 then
              let tod := hh * 3600 + nn * 60 + ss
              match tz with
              | [] => some (dateVal + tod)
              | sgn :: o1 :: o2 :: ':' :: p1 :: p2 :: [] =>
                if (sgn = '+' || sgn = '-') && allDigits [o1, o2] && allDigits [p1, p2] then
                  let off : ℤ := (digitsVal [o1, o2]) * 3600 + (digitsVal [p1, p2]) * 60
                  some (dateVal + tod + (if sgn = '+' then -off else off))
                else none
              | _ => none
            else none
          else none
        | _ => none
      else none
    else none
  | _ => none

/-- Modelled from the Python builtin collaborator `float(str)` on a
character list that has already been stripped and freed of its sign:
`digits[.digits][e[sign]digits]`, `.digits`, `digits.` (non-finite
literals such as inf and nan are outside the rational model). -/
def parseFloatCore (cs : List Char) : Option ℚ :=
  let mantExp := cs.span (fun c => c ≠ 'e' && c ≠ 'E')
  let intFrac := mantExp.1.span (fun c => c ≠ '.')
  let ipart := intFrac.1
  let fpart := match intFrac.2 with
    | [] => some ([] : List Char)
    | _ :: fs => if fs.all (·.isDigit) then some fs else none
  match fpart with
  | none => none
  | some fs =>
    if ipart.all (·.isDigit) && (!ipart.isEmpty || !fs.isEmpty) then
      let mant : ℚ := (digitsVal ipart : ℚ) + (digitsVal fs : ℚ) / ((10 : ℚ) ^ fs.length)
      match mantExp.2 with
      | [] => some mant
      | _ :: es =>
        let sgnExp : ℤ × List Char := match es with
          | '+' :: r => (1, r)
          | '-' :: r => (-1, r)
          | _ => (1, es)
        if allDigits sgnExp.2 then
          some (mant * (10 : ℚ) ^ (sgnExp.1 * (digitsVal sgnExp.2 : ℤ)))
        else none
    else none

/-- Model of Python `str.strip()`: drop whitespace from both ends
(written over the character list so that it evaluates by kernel
reduction). -/
def pyStrip (s : String) : String :=
  String.mk (((s.data.dropWhile Char.isWhitespace).reverse.dropWhile
    Char.isWhitespace).reverse)

/-- Model of the Python builtin `float(v)`: numbers and bools convert,
strings are parsed (ValueError on failure), anything else raises
TypeError. -/
def pyFloat : JVal → Except PyErr ℚ
  | .num q => .ok q
  | .bool b => .ok (if b then 1 else 0)
  | .str s =>
    let t := (pyStrip s).data
    let core := match t with
      | '+' :: r => parseFloatCore r
      | '-' :: r => (parseFloatCore r).map (fun q => -q)
      | _ => parseFloatCore t
    match core with
    | some q => .ok q
    | none => .error (.valueError "could not convert string to float")
  | _ => .error .typeError

/-- Model of Python `raw.replace("Z", "+00:00")` over the character
list (written so that it evaluates by kernel reduction). -/
def zReplace (s : String) : String :=
  String.mk (s.data.foldr
    (fun c acc => (if c = 'Z' then ['+', '0', '0', ':', '0', '0'] else [c]) ++ acc) [])

/-- Model of `parse_iso_datetime` from src/aml_ui/data_access.py: falsy
input gives None; a string is parsed after replacing Z with an explicit
UTC offset, with parse failures caught and turned into None; a truthy
non-string raises AttributeError at `raw.replace`, which the source
does not catch. -/
def parseIsoE (v : JVal) : Except PyErr (Option Time) :=
  if truthy v then
    match v with
    | .str s => .ok (fromisoformat (zReplace s))
    | _ => .error .attributeError
  else .ok none

/-- Model of Python `round(q, 2)` over the rationals (the tie-breaking
detail of float banker rounding is not modelled; no claim depends on
it). -/
def round2 (q : ℚ) : ℚ := (round (q * 100) : ℚ) / 100

/-- Model of `compute_risk_score` (src/aml_ui/services.py lines 61-73)
over the real numbers: `math.log1p(x)` is `Real.log (1 + x)`, and the
final `int(max(1.0, min(99.0, round(raw_score))))` is the clamped
rounding (the result of Python `round` is already an int, so the outer
conversion is exact). -/
noncomputable def computeRiskScore (member_count transaction_count : ℕ)
    (total_amount : ℝ) (unique_counterparties : ℕ) (outgoing_share : ℝ) : ℤ :=
  let exposure : ℝ := if 0 < total_amount then Real.log (1 + total_amount) else 0
  let exposure_scale : ℝ :=
    if exposure ≠ 0 then exposure / Real.log (1 + 250000) * 55 else 0
  let structural : ℝ :=
    member_count * 4.5 + transaction_count * 2.2 + unique_counterparties * 1.5
  let directionality : ℝ := outgoing_share * 18
  let raw_score := structural + exposure_scale + directionality
  max 1 (min 99 (round raw_score))

/-- Parsed transaction record as stored in the enriched group under
`_transactions`: the original dict fields that downstream code reads,
plus the `parsed_timestamp` entry added by `enrich_group`. -/
structure PTx where
  amount : JVal
  direction : JVal
  counterparty_id : JVal
  timestamp : JVal
  parsed_timestamp : Option Time
deriving DecidableEq, Repr

/-- Group metrics computed by `enrich_group` and stored under
`_metrics`.  The field `outgoing_share` models the metric named
outgoing_ratio in the source. -/
structure Metrics where
  member_count : ℕ
  transaction_count : ℕ
  total_amount : ℚ
  unique_counterparties : ℕ
  outgoing_share : ℚ
  first_seen : Option Time
  last_seen : Option Time
  min_transaction_amount : Option ℚ
  max_transaction_amount : Option ℚ
  risk_score : ℤ
deriving DecidableEq, Repr

/-- View of one transaction produced by the per-transaction body of the
loop in `enrich_group`: the numeric amount when the isinstance check
passes, the counterparty when truthy (already checked hashable), the
case-normalized direction, the parsed timestamp, and the stored parsed
transaction. -/
structure TxView where
  amountQ : Option ℚ
  cp : Option JVal
  dir : String
  ts : Option Time
  ptx : PTx
deriving DecidableEq, Repr

/-- Everything `enrich_group` computes before the risk score: the loop
accumulators in closed form, plus the copied dict, parsed transactions
and display name. -/
structure Stats where
  member_count : ℕ
  transaction_count : ℕ
  rawTotal : ℚ
  unique_counterparties : ℕ
  outgoing_share : ℚ
  first_seen : Option Time
  last_seen : Option Time
  min_transaction_amount : Option ℚ
  max_transaction_amount : Option ℚ
  fields : List (String × JVal)
  ptxs : List PTx
  display_name : JVal
deriving DecidableEq, Repr

/-- Enriched group as produced by `enrich_group`: the original dict
entries (the deep copy), the computed `_metrics`, the parsed
`_transactions` and the `_display_name`. -/
structure EnrichedGroup where
  fields : List (String × JVal)
  metrics : Metrics
  ptxs : List PTx
  display_name : JVal
deriving DecidableEq, Repr

/-- Model of `group.get(k)` on an enriched group for the plain data
keys (the derived underscore entries are the structure fields). -/
def EnrichedGroup.get (g : EnrichedGroup) (k : String) : JVal :=
  dictGetD g.fields k .null

/-- Direction synonyms classified as outgoing by `enrich_group`. -/
def outgoingSyn : List String := ["out", "outgoing", "debit"]

/-- Direction synonyms classified as incoming by
`build_network_payload`. -/
def incomingSyn : List String := ["in", "incoming", "credit"]

/-- Model of one iteration of the transaction loop of `enrich_group`
(src/aml_ui/services.py lines 88-106), in source order: amount
isinstance check (never raises), counterparty set insertion (TypeError
on a truthy unhashable value), direction lowering (AttributeError on a
truthy non-string), timestamp parsing (AttributeError on a truthy
non-string), and construction of the stored parsed transaction. -/
def viewTx (tx : JVal) : Except PyErr TxView :=
  match tx with
  | .obj kvs =>
    let amountV := dictGetD kvs "amount" .null
    let amountQ : Option ℚ := if isNumberLike amountV then some (numValQ amountV) else none
    let cpV := dictGetD kvs "counterparty_id" .null
    if truthy cpV && !hashable cpV then .error .typeError
    else
      match pyLowerStr (pyOr (dictGetD kvs "direction" .null) (.str "")) with
      | .error e => .error e
      | .ok dir =>
        match parseIsoE (dictGetD kvs "timestamp" .null) with
        | .error e => .error e
        | .ok ts =>
          .ok { amountQ := amountQ
                cp := if truthy cpV then some cpV else none
                dir := dir
                ts := ts
                ptx := { amount := amountV
                         direction := dictGetD kvs "direction" .null
                         counterparty_id := cpV
                         timestamp := dictGetD kvs "timestamp" .null
                         parsed_timestamp := ts } }
  | _ => .error .attributeError

/-- Minimum of a list, mirroring Python `min(xs)` on a nonempty list
(None on the empty list, matching the guarded uses in the source). -/
def listMin? [LinearOrder α] : List α → Option α
  | [] => none
  | x :: xs => some (xs.foldl min x)

/-- Maximum of a list, mirroring Python `max(xs)`. -/
def listMax? [LinearOrder α] : List α → Option α
  | [] => none
  | x :: xs => some (xs.foldl max x)

/-- Model of `enrich_group` (src/aml_ui/services.py lines 76-135) up to
but excluding the risk score: a non-dict argument raises at the first
`.get`; the transactions value (defaulted to the empty list when falsy)
is iterated, each iteration as in `viewTx`; the loop accumulators are
given in closed form; `len(members)` raises TypeError on a truthy
unsized value; the display name falls back from the canonical `name`
attribute to the group id, raising AttributeError when the canonical
attributes are truthy but not a dict. -/
def enrichStats (g : JVal) : Except PyErr Stats :=
  match g with
  | .obj kvs =>
    let membersV := dictGetD kvs "members" .null
    let transactionsV := dictGetD kvs "transactions" .null
    match asList (pyOr transactionsV (.arr [])) with
    | .error e => .error e
    | .ok txs =>
      match exMapM viewTx txs with
      | .error e => .error e
      | .ok views =>
        match pyLen (pyOr membersV (.arr [])) with
        | .error e => .error e
        | .ok member_count =>
          let canonical := pyOr (dictGetD kvs "canonical_attributes" .null) (.obj [])
          match pyGetE canonical "name" .null with
          | .error e => .error e
          | .ok nameV =>
            let amounts := views.filterMap (·.amountQ)
            let times := views.filterMap (·.ts)
            let outCount := views.countP (fun v => v.dir ∈ outgoingSyn)
            .ok { member_count := member_count
                  transaction_count := txs.length
                  rawTotal := amounts.sum
                  unique_counterparties :=
                    ((views.filterMap (·.cp)).foldl setInsert []).length
                  outgoing_share :=
                    if txs.length = 0 then 0 else (outCount : ℚ) / (txs.length : ℚ)
                  first_seen := listMin? times
                  last_seen := listMax? times
                  min_transaction_amount := listMin? amounts
                  max_transaction_amount := listMax? amounts
                  fields := kvs
                  ptxs := views.map (·.ptx)
                  display_name := pyOr nameV (dictGetD kvs "group_id" .null) }
  | _ => .error .attributeError

/-- Assembly of the enriched group from the statistics record: attaches
the risk score computed by `compute_risk_score` on the unrounded total
and rounds the stored total to 2 decimals, mirroring lines 110-135 of
src/aml_ui/services.py. -/
noncomputable def finalize (s : Stats) : EnrichedGroup :=
  { fields := s.fields
    ptxs := s.ptxs
    display_name := s.display_name
    metrics :=
      { member_count := s.member_count
        transaction_count := s.transaction_count
        total_amount := round2 s.rawTotal
        unique_counterparties := s.unique_counterparties
        outgoing_share := s.outgoing_share
        first_seen := s.first_seen
        last_seen := s.last_seen
        min_transaction_amount := s.min_transaction_amount
        max_transaction_amount := s.max_transaction_amount
        risk_score := computeRiskScore s.member_count s.transaction_count
          (s.rawTotal : ℝ) s.unique_counterparties (s.outgoing_share : ℝ) } }

/-- Model of `enrich_group`: the statistics pass followed by the pure
assembly (the risk-score formula itself cannot raise in the rational
model, so the composition preserves the source error behavior). -/
noncomputable def enrichGroup (g : JVal) : Except PyErr EnrichedGroup :=
  (enrichStats g).map finalize

/-- Model of the `GroupFilters` dataclass with its defaults; the float
bound `max_total` lives in the rationals extended with the infinity
that `float("inf")` denotes. -/
structure GroupFilters where
  min_risk : ℤ := 0
  min_total : ℚ := 0
  max_total : WithTop ℚ := ⊤
  start_date : Option Time := none
  end_date : Option Time := none
  reported_only : Bool := false
deriving DecidableEq

/-- The default `GroupFilters()`. -/
def defaultGroupFilters : GroupFilters := {}

/-- Keep-predicate of the loop body of `filter_groups`
(src/aml_ui/services.py lines 187-203), guards in source order; the
reported-set membership is modelled by decidable equality on values. -/
def keepGroup (f : GroupFilters) (reported : List JVal) (g : EnrichedGroup) : Bool :=
  if g.metrics.risk_score < f.min_risk then false
  else if g.metrics.total_amount < f.min_total ∨
      f.max_total < (g.metrics.total_amount : WithTop ℚ) then false
  else if f.reported_only && !decide (g.get "group_id" ∈ reported) then false
  else if f.start_date.isSome || f.end_date.isSome then
    (match f.start_date with
     | none => true
     | some sd =>
       match g.metrics.last_seen with
       | none => false
       | some le => decide (sd ≤ le)) &&
    (match f.end_date with
     | none => true
     | some ed =>
       match g.metrics.first_seen with
       | none => false
       | some fs => decide (fs ≤ ed))
  else true

/-- Model of `filter_groups`: the accumulate-if-not-skipped loop is the
filter by the keep-predicate (a pure fold, no mutation). -/
def filterGroups (groups : List EnrichedGroup) (f : GroupFilters)
    (reported : List JVal) : List EnrichedGroup :=
  groups.filter (keepGroup f reported)

/-- Model of the `SummaryStats` response, all fields optional. -/
structure SummaryStats where
  min_total_amount : Option ℚ
  max_total_amount : Option ℚ
  min_risk : Option ℤ
  max_risk : Option ℤ
  min_date : Option Time
  max_date : Option Time
  min_tx_amount : Option ℚ
  max_tx_amount : Option ℚ
deriving DecidableEq, Repr

/-- Model of `summarize_groups` (src/aml_ui/services.py lines 138-176):
all-absent stats on the empty input, otherwise min/max over the pooled
value lists (the truthiness test on stored datetimes is always true, so
present timestamps are exactly the non-None ones). -/
def summarizeGroups (groups : List EnrichedGroup) : SummaryStats :=
  match groups with
  | [] =>
    { min_total_amount := none, max_total_amount := none
      min_risk := none, max_risk := none
      min_date := none, max_date := none
      min_tx_amount := none, max_tx_amount := none }
  | _ =>
    let totals := groups.map (·.metrics.total_amount)
    let risks := groups.map (·.metrics.risk_score)
    let txMins := groups.filterMap (·.metrics.min_transaction_amount)
    let txMaxs := groups.filterMap (·.metrics.max_transaction_amount)
    let dates := groups.foldr
      (fun g acc => g.metrics.first_seen.toList ++ g.metrics.last_seen.toList ++ acc) []
    { min_total_amount := listMin? totals, max_total_amount := listMax? totals
      min_risk := listMin? risks, max_risk := listMax? risks
      min_date := listMin? dates, max_date := listMax? dates
      min_tx_amount := listMin? txMins, max_tx_amount := listMax? txMaxs }

/-- Model of the `NetworkNode` payload. -/
structure NetworkNode where
  id : JVal
  label : JVal
  kind : String
  risk_score : Option ℤ
  member_count : Option ℕ
  total_amount : Option ℚ
  highlight : Bool
deriving DecidableEq, Repr

/-- Accumulated edge entry of the edges dict of
`build_network_payload`: running amount, count, and the set of observed
direction strings. -/
@[ext]
structure EdgeData where
  amount : ℚ
  count : ℕ
  dirs : List String
deriving DecidableEq, Repr

/-- Model of the `NetworkEdge` payload. -/
structure NetworkEdge where
  source : JVal
  target : JVal
  amount : ℚ
  count : ℕ
  directions : List String
deriving DecidableEq, Repr

/-- Model of the `NetworkResponse` payload. -/
structure NetworkResponse where
  nodes : List NetworkNode
  edges : List NetworkEdge
deriving DecidableEq, Repr

/-- The two insertion-ordered dicts built by `build_network_payload`. -/
structure NetState where
  nodes : List (JVal × NetworkNode)
  edges : List ((JVal × JVal) × EdgeData)
deriving DecidableEq

/-- Ordered association-list update modelling assignment into a Python
dict: an existing key keeps its position and gets the new value, a new
key is appended. -/
def alUpsert [DecidableEq κ] (l : List (κ × α)) (k : κ) (f : Option α → α) :
    List (κ × α) :=
  match l with
  | [] => [(k, f none)]
  | (k1, v1) :: rest =>
    if k1 = k then (k1, f (some v1)) :: rest else (k1, v1) :: alUpsert rest k f

/-- Ordered association-list lookup. -/
def alLookup [DecidableEq κ] (l : List (κ × α)) (k : κ) : Option α :=
  match l with
  | [] => none
  | (k1, v1) :: rest => if k1 = k then some v1 else alLookup rest k

/-- The fresh edge entry created by `edges.setdefault`. -/
def emptyEdgeData : EdgeData := { amount := 0, count := 0, dirs := [] }

/-- Insertion into the direction set, modelled like every other Python
set in this embedding as an ordered list of distinct elements. -/
def strSetInsert (s : List String) (x : String) : List String :=
  if x ∈ s then s else s ++ [x]

/-- One merge of a transaction into an edge entry: add the amount, bump
the count, and record a non-empty direction string. -/
def accumOne (d : EdgeData) (a : ℚ) (dir : String) : EdgeData :=
  { amount := d.amount + a
    count := d.count + 1
    dirs := if dir = "" then d.dirs else strSetInsert d.dirs dir }

/-- Lazy creation of a counterparty node on first sight, appended to
the insertion-ordered nodes dict with the first 24 characters of the id
as label; slicing a non-sliceable id raises TypeError. -/
def ensureCpNode (nodes : List (JVal × NetworkNode)) (cp : JVal) :
    Except PyErr (List (JVal × NetworkNode)) :=
  if (alLookup nodes cp).isSome then .ok nodes
  else
    match pySlice24 cp with
    | .error e => .error e
    | .ok lbl =>
      .ok (nodes ++ [(cp,
        { id := cp, label := lbl, kind := "counterparty"
          risk_score := none, member_count := none, total_amount := none
          highlight := false })])

/-- Model of the inner transaction loop body of `build_network_payload`
(src/aml_ui/services.py lines 231-263), in source order: skip on a
falsy counterparty; probing the nodes dict raises TypeError on an
unhashable counterparty; the counterparty node is ensured; `float(amount
or 0.0)` can raise; the lowered direction decides the ordered edge key;
the edge entry accumulates. -/
def bnpTx (gid : JVal) (st : NetState) (t : PTx) : Except PyErr NetState :=
  if !truthy t.counterparty_id then .ok st
  else if !hashable t.counterparty_id then .error .typeError
  else
    match ensureCpNode st.nodes t.counterparty_id with
    | .error e => .error e
    | .ok nodes1 =>
      match pyFloat (pyOr t.amount (.num 0)) with
      | .error e => .error e
      | .ok amount =>
        match pyLowerStr (pyOr t.direction (.str "")) with
        | .error e => .error e
        | .ok dir =>
          let key := if dir ∈ incomingSyn then (t.counterparty_id, gid)
            else (gid, t.counterparty_id)
          .ok { nodes := nodes1
                edges := alUpsert st.edges key
                  (fun d => accumOne (d.getD emptyEdgeData) amount dir) }

/-- Model of the per-group body of `build_network_payload`
(src/aml_ui/services.py lines 217-263): skip groups with a falsy id;
the group node is written into the nodes dict (TypeError on an
unhashable id, which Python would raise at the reported-set probe in
the node arguments); then the transactions are folded. -/
def bnpGroupNode (hl : Bool) (reported : List JVal) (g : EnrichedGroup) :
    NetworkNode :=
  { id := g.get "group_id"
    label := pyOr g.display_name (g.get "group_id")
    kind := "group"
    risk_score := some g.metrics.risk_score
    member_count := some g.metrics.member_count
    total_amount := some g.metrics.total_amount
    highlight := hl && decide (g.get "group_id" ∈ reported) }

def bnpGroup (hl : Bool) (reported : List JVal) (st : NetState)
    (g : EnrichedGroup) : Except PyErr NetState :=
  let gid := g.get "group_id"
  if !truthy gid then .ok st
  else if !hashable gid then .error .typeError
  else
    exFoldlM (bnpTx gid)
      { st with nodes := alUpsert st.nodes gid (fun _ => bnpGroupNode hl reported g) }
      g.ptxs

/-- Emission of one accumulated edge entry into a `NetworkEdge`: amount
rounded to 2 decimals, direction set sorted lexicographically (Python
`sorted` modelled by insertion sort over the string order). -/
def emitEdge (kv : (JVal × JVal) × EdgeData) : NetworkEdge :=
  { source := kv.1.1, target := kv.1.2
    amount := round2 kv.2.amount
    count := kv.2.count
    directions := List.insertionSort (· ≤ ·) kv.2.dirs }

/-- Model of `build_network_payload` (src/aml_ui/services.py lines
207-275): fold the groups over both insertion-ordered dicts, then emit
nodes and edges in insertion order. -/
def buildNetworkPayload (groups : List EnrichedGroup) (reported : List JVal)
    (hl : Bool) : Except PyErr NetworkResponse :=
  match exFoldlM (bnpGroup hl reported) { nodes := [], edges := [] } groups with
  | .error e => .error e
  | .ok st => .ok { nodes := st.nodes.map (·.2), edges := st.edges.map emitEdge }

/-- One member of the record-id set comprehension: add the record id
when truthy (the comprehension filter). -/
def memberIdStep (s : List JVal) (m : JVal) : Except PyErr (List JVal) :=
  match pyGetE m "record_id" .null with
  | .error e => .error e
  | .ok r => if truthy r then pySetAdd s r else .ok s

/-- Model of the member-id set comprehension of
`_select_relevant_snapshots` (src/aml_ui/services.py line 468): record
ids of the members, truthy ones only, as a Python set. -/
def buildMemberIds (g : EnrichedGroup) : Except PyErr (List JVal) :=
  match asList (pyOr (g.get "members") (.arr [])) with
  | .error e => .error e
  | .ok ms => exFoldlM memberIdStep [] ms

/-- One member of the signature-set loop: every signature history entry
is added to the set. -/
def sigSetStep (s : List JVal) (m : JVal) : Except PyErr (List JVal) :=
  match pyGetE m "signature_history" .null with
  | .error e => .error e
  | .ok sh =>
    match asList (pyOr sh (.arr [])) with
    | .error e => .error e
    | .ok sigs => exFoldlM pySetAdd s sigs

/-- Model of the signature-set loop of `_select_relevant_snapshots`
(src/aml_ui/services.py lines 469-472): the union of all members
signature histories, every entry added. -/
def buildSigSet (g : EnrichedGroup) : Except PyErr (List JVal) :=
  match asList (pyOr (g.get "members") (.arr [])) with
  | .error e => .error e
  | .ok ms => exFoldlM sigSetStep [] ms

/-- Model of the per-snapshot body of the matching loop of
`_select_relevant_snapshots` (src/aml_ui/services.py lines 475-485):
non-dicts are skipped; the three membership tests run in order with
first match appending the snapshot once; when the canonical tax id is
truthy the normalized-attributes probe can raise AttributeError. -/
def snapStep (memIds sigSet : List JVal) (tax : JVal) (matched : List JVal)
    (s : JVal) : Except PyErr (List JVal) :=
  match s with
  | .obj skvs =>
    match pySetIn (dictGetD skvs "record_id" .null) memIds with
    | .error e => .error e
    | .ok true => .ok (matched ++ [s])
    | .ok false =>
      match pySetIn (dictGetD skvs "signature" .null) sigSet with
      | .error e => .error e
      | .ok true => .ok (matched ++ [s])
      | .ok false =>
        if truthy tax then
          match pyGetE (dictGetD skvs "normalized_attributes" (.obj [])) "tax_id" .null with
          | .error e => .error e
          | .ok t2 => .ok (if t2 = tax then matched ++ [s] else matched)
        else .ok matched
  | _ => .ok matched

/-- Model of `GroupService._select_relevant_snapshots`
(src/aml_ui/services.py lines 464-486), the snapshot list passed
explicitly as the loaded artifact: empty snapshots short-circuit;
`group.get("canonical_attributes", {})` keeps an explicit None, so a
null canonical attributes mapping raises at the tax-id probe. -/
def selectRelevantSnapshots (g : EnrichedGroup) (snapshots : List JVal)
    (limit : ℕ := 25) : Except PyErr (List JVal) :=
  if snapshots.isEmpty then .ok []
  else
    match buildMemberIds g with
    | .error e => .error e
    | .ok memIds =>
      match buildSigSet g with
      | .error e => .error e
      | .ok sigSet =>
        match pyGetE (dictGetD g.fields "canonical_attributes" (.obj [])) "tax_id" .null with
        | .error e => .error e
        | .ok tax =>
          match exFoldlM (snapStep memIds sigSet tax) [] snapshots with
          | .error e => .error e
          | .ok matched => .ok (matched.take limit)

/-- Model of the `ReportCreateRequest` payload (its pydantic validation
layer guarantees string fields). -/
structure ReportCreateRequest where
  group_id : String
  reason : String
  checks : List String
deriving DecidableEq, Repr

/-- State the report path of the service reads and writes: the loaded
enriched groups and the report ledger. -/
structure ServiceState where
  groups : List EnrichedGroup
  reports : List JVal
deriving DecidableEq

/-- Model of the target search `next((g for g in groups if
g.get("group_id") == request.group_id), None)`. -/
def findGroup (groups : List EnrichedGroup) (gid : String) : Option EnrichedGroup :=
  groups.find? (fun g => g.get "group_id" == .str gid)

/-- Message of the empty-reason rejection. -/
def reasonRequiredMsg : String := "A reason is required to record a report"

/-- Message of the unknown-group rejection. -/
def notFoundMsg (gid : String) : String := "Group " ++ gid ++ " not found"

/-- The ledger record built by `submit_report`: Python `str.strip` is
modelled by `pyStrip`, `str(check)` on a string is the identity, and
the wall-clock timestamp string is passed in by the caller. -/
def mkReportPayload (now : String) (req : ReportCreateRequest)
    (target : EnrichedGroup) : JVal :=
  .obj [("timestamp", .str now),
        ("group_id", .str req.group_id),
        ("reason", .str (pyStrip req.reason)),
        ("checks", .arr (req.checks.map .str)),
        ("snapshot", .obj [
          ("num_members", .num target.metrics.member_count),
          ("total_amount", .num target.metrics.total_amount),
          ("risk_score", .num (target.metrics.risk_score : ℚ))])]

/-- Model of `GroupService.submit_report` (src/aml_ui/services.py lines
506-531): reject a whitespace-only reason, then an unknown group id;
otherwise append the new record to the ledger and return it.  Both
rejections happen before any mutation, so the state is returned
untouched on failure. -/
def submitReport (st : ServiceState) (now : String) (req : ReportCreateRequest) :
    ServiceState × Except PyErr JVal :=
  if pyStrip req.reason = "" then (st, .error (.valueError reasonRequiredMsg))
  else
    match findGroup st.groups req.group_id with
    | none => (st, .error (.valueError (notFoundMsg req.group_id)))
    | some target =>
      let payload := mkReportPayload now req target
      ({ st with reports := st.reports ++ [payload] }, .ok payload)

/-- True exactly on `.ok` results. -/
def isOkE : Except PyErr α → Bool
  | .ok _ => true
  | .error _ => false

/-- Constructor tests used by the well-formedness conditions. -/
def isStr : JVal → Bool
  | .str _ => true
  | _ => false

/-- True on dict values. -/
def isObjV : JVal → Bool
  | .obj _ => true
  | _ => false

/-- True on list values. -/
def isArrV : JVal → Bool
  | .arr _ => true
  | _ => false

/-- A value that is a string whenever it is truthy. -/
def strOrFalsy (v : JVal) : Bool := !truthy v || isStr v

/-- A value that is a dict whenever it is truthy. -/
def objOrFalsy (v : JVal) : Bool := !truthy v || isObjV v

/-- A value `len` accepts whenever it is truthy. -/
def sizedOrFalsy (v : JVal) : Bool :=
  !truthy v ||
    (match v with
     | .str _ => true
     | .arr _ => true
     | .obj _ => true
     | _ => false)

/-- Specification-side predicate of the `filter_groups` claim: risk at
least the threshold, total inside the amount window, reported when
required, and the seen interval overlapping a given date range, with a
group lacking the relevant timestamp never passing that side. -/
def passesClaim (f : GroupFilters) (reported : List JVal) (g : EnrichedGroup) : Bool :=
  decide (f.min_risk ≤ g.metrics.risk_score) &&
  decide (f.min_total ≤ g.metrics.total_amount) &&
  decide ((g.metrics.total_amount : WithTop ℚ) ≤ f.max_total) &&
  (!f.reported_only || decide (g.get "group_id" ∈ reported)) &&
  (match f.start_date with
   | none => true
   | some sd =>
     match g.metrics.last_seen with
     | none => false
     | some le => decide (sd ≤ le)) &&
  (match f.end_date with
   | none => true
   | some ed =>
     match g.metrics.first_seen with
     | none => false
     | some fs => decide (fs ≤ ed))

/-- The members list of a group as the correlator iterates it, total
fallback variant for the specification side. -/
def membersListP (g : EnrichedGroup) : List JVal :=
  match asList (pyOr (g.get "members") (.arr [])) with
  | .ok ms => ms
  | .error _ => []

/-- Pure counterpart of `memberIdStep`. -/
def memberIdStepP (s : List JVal) (m : JVal) : List JVal :=
  if truthy (objGetP m "record_id") then setInsert s (objGetP m "record_id") else s

/-- Specification-side member record-id set (truthy ids only). -/
def memberIdsP (g : EnrichedGroup) : List JVal :=
  (membersListP g).foldl memberIdStepP []

/-- Pure counterpart of `sigSetStep`. -/
def sigSetStepP (s : List JVal) (m : JVal) : List JVal :=
  (match asList (pyOr (objGetP m "signature_history") (.arr [])) with
   | .ok l => l
   | .error _ => []).foldl setInsert s

/-- Specification-side union of the members signature histories. -/
def sigSetP (g : EnrichedGroup) : List JVal :=
  (membersListP g).foldl sigSetStepP []

/-- Specification-side canonical tax id of a group (the dict default is
the empty mapping, so only an explicit entry can be truthy). -/
def taxIdP (g : EnrichedGroup) : JVal :=
  objGetP (dictGetD g.fields "canonical_attributes" (.obj [])) "tax_id"

/-- Matching predicate relative to explicit member-id set, signature
set and tax id: a dict snapshot matches when its record id is in the
member set, or its signature is in the signature set, or the tax id is
truthy and equals the snapshot normalized tax id. -/
def snapPredP (memIds sigSet : List JVal) (tax : JVal) (s : JVal) : Bool :=
  match s with
  | .obj skvs =>
    decide (dictGetD skvs "record_id" .null ∈ memIds) ||
    decide (dictGetD skvs "signature" .null ∈ sigSet) ||
    (truthy tax &&
      decide (objGetP (dictGetD skvs "normalized_attributes" (.obj [])) "tax_id"
        = tax))
  | _ => false

/-- Specification-side matching predicate of the correlator claim: a
dict snapshot matches when its record id is a member record id, or its
signature is in the union of the signature histories, or the canonical
tax id is present and equals the snapshot normalized tax id. -/
def snapMatches (g : EnrichedGroup) (s : JVal) : Bool :=
  snapPredP (memberIdsP g) (sigSetP g) (taxIdP g) s

/-- One eligible transaction of the network builder, as the claim sees
it: the ordered edge key the direction rule assigns, the parsed amount,
and the lowered direction string. -/
structure EdgeEvent where
  key : JVal × JVal
  amount : ℚ
  dir : String
deriving DecidableEq, Repr

/-- Specification-side extraction of the edge event of one transaction:
nothing for a falsy counterparty; otherwise the amount and direction
parse as in the builder and the edge runs counterparty to group on an
incoming synonym and group to counterparty otherwise. -/
def txEvent (gid : JVal) (t : PTx) : Except PyErr (Option EdgeEvent) :=
  if !truthy t.counterparty_id then .ok none
  else
    match pyFloat (pyOr t.amount (.num 0)) with
    | .error e => .error e
    | .ok amount =>
      match pyLowerStr (pyOr t.direction (.str "")) with
      | .error e => .error e
      | .ok dir =>
        .ok (some
          { key := if dir ∈ incomingSyn then (t.counterparty_id, gid)
              else (gid, t.counterparty_id)
            amount := amount
            dir := dir })

/-- Edge events of one group: none when the group id is falsy. -/
def groupEvents (g : EnrichedGroup) : Except PyErr (List EdgeEvent) :=
  let gid := g.get "group_id"
  if !truthy gid then .ok []
  else
    match exMapM (txEvent gid) g.ptxs with
    | .error e => .error e
    | .ok opts => .ok (opts.filterMap id)

/-- Edge events of a group sequence, in processing order. -/
def edgeEvents (groups : List EnrichedGroup) : Except PyErr (List EdgeEvent) :=
  match exMapM groupEvents groups with
  | .error e => .error e
  | .ok ls => .ok ls.flatten

/-- The edges-dict update one edge event performs. -/
def stepEdges (edges : List ((JVal × JVal) × EdgeData)) (ev : EdgeEvent) :
    List ((JVal × JVal) × EdgeData) :=
  alUpsert edges ev.key (fun d => accumOne (d.getD emptyEdgeData) ev.amount ev.dir)

/-- Leaf well-formedness of one transaction under which the enrichment
loop body cannot raise: a dict whose direction and timestamp are
strings when truthy and whose counterparty is hashable when truthy (the
amount may be arbitrarily malformed). -/
def enrichTxWF (tx : JVal) : Bool :=
  match tx with
  | .obj kvs =>
    strOrFalsy (dictGetD kvs "direction" .null) &&
    strOrFalsy (dictGetD kvs "timestamp" .null) &&
    (!truthy (dictGetD kvs "counterparty_id" .null) ||
      hashable (dictGetD kvs "counterparty_id" .null))
  | _ => false

/-- Well-formedness of a raw group under which `enrich_group` cannot
raise: a dict whose members value is sized when truthy, whose
transactions value defaults or is a list of well-formed transaction
dicts, and whose canonical attributes are a dict when truthy. -/
def enrichWF (g : JVal) : Bool :=
  match g with
  | .obj kvs =>
    sizedOrFalsy (dictGetD kvs "members" .null) &&
    (match pyOr (dictGetD kvs "transactions" .null) (.arr []) with
     | .arr txs => txs.all enrichTxWF
     | _ => false) &&
    objOrFalsy (dictGetD kvs "canonical_attributes" .null)
  | _ => false

/-- Well-formedness of one stored transaction under which the network
builder body cannot raise: when the counterparty is truthy it is a
string, the amount converts under `float(amount or 0.0)`, and the
direction is a string when truthy. -/
def networkTxWF (t : PTx) : Bool :=
  !truthy t.counterparty_id ||
    (isStr t.counterparty_id &&
      isOkE (pyFloat (pyOr t.amount (.num 0))) &&
      strOrFalsy t.direction)

/-- Well-formedness of an enriched group under which the network
builder cannot raise: a falsy group id skips the group, otherwise the
id is a string and every stored transaction is well formed. -/
def networkGroupWF (g : EnrichedGroup) : Bool :=
  !truthy (g.get "group_id") ||
    (isStr (g.get "group_id") && g.ptxs.all networkTxWF)

/-- Well-formedness of one member dict for the correlator: the record
id is hashable when truthy and the signature history defaults or is a
list of hashable values. -/
def selectMemberWF (m : JVal) : Bool :=
  match m with
  | .obj kvs =>
    (!truthy (dictGetD kvs "record_id" .null) ||
      hashable (dictGetD kvs "record_id" .null)) &&
    (match pyOr (dictGetD kvs "signature_history" .null) (.arr []) with
     | .arr sigs => sigs.all hashable
     | _ => false)
  | _ => false

/-- Well-formedness of a group for the correlator: the members value
defaults or is a list of well-formed member dicts, and the canonical
attributes entry is a dict (the absent key defaults to one; an explicit
None is exactly the rejected case). -/
def selectGroupWF (g : EnrichedGroup) : Bool :=
  (match pyOr (g.get "members") (.arr []) with
   | .arr ms => ms.all selectMemberWF
   | _ => false) &&
  isObjV (dictGetD g.fields "canonical_attributes" (.obj []))

/-- Well-formedness of one snapshot for the correlator, relative to
whether the canonical tax id is truthy: non-dicts are skipped and need
nothing; a dict needs hashable record id and signature probes, and a
dict normalized-attributes entry when the tax comparison runs. -/
def snapWF (taxTruthy : Bool) (s : JVal) : Bool :=
  match s with
  | .obj skvs =>
    hashable (dictGetD skvs "record_id" .null) &&
    hashable (dictGetD skvs "signature" .null) &&
    (!taxTruthy || isObjV (dictGetD skvs "normalized_attributes" (.obj [])))
  | _ => true

/-- Decidable relational form of the per-group transaction bound
invariant the enrichment establishes: the min and max transaction
amounts are present together and ordered. -/
def txBoundsWF (g : EnrichedGroup) : Bool :=
  match g.metrics.min_transaction_amount, g.metrics.max_transaction_amount with
  | some a, some b => decide (a ≤ b)
  | none, none => true
  | _, _ => false

/-- Concrete enriched group with nonnegative total, used by witnesses. -/
def gPosW : EnrichedGroup :=
  { fields := [("group_id", .str "GP")]
    metrics :=
      { member_count := 2, transaction_count := 1, total_amount := 5
        unique_counterparties := 1, outgoing_share := 1
        first_seen := some 100, last_seen := some 200
        min_transaction_amount := some 5, max_transaction_amount := some 5
        risk_score := 14 }
    ptxs := []
    display_name := .str "GP" }

/-- Concrete enriched group whose parseable amounts sum to a negative
total, used by witnesses. -/
def gNegW : EnrichedGroup :=
  { fields := [("group_id", .str "GN")]
    metrics :=
      { member_count := 1, transaction_count := 1, total_amount := -3
        unique_counterparties := 0, outgoing_share := 0
        first_seen := none, last_seen := none
        min_transaction_amount := some (-3), max_transaction_amount := some (-3)
        risk_score := 5 }
    ptxs := []
    display_name := .str "GN" }

/-- Specification-side aggregate of the edge events contributing to
one ordered key: summed amount, contribution count, and the set of
non-empty direction strings. -/
def edgeAgg (contribs : List EdgeEvent) : EdgeData :=
  { amount := (contribs.map (·.amount)).sum
    count := contribs.length
    dirs := (contribs.filterMap
      (fun ev => if ev.dir = "" then none else some ev.dir)).foldl strSetInsert [] }

/-- Specification-side classification of one raw transaction as
outgoing: its case-normalized direction (empty for a falsy value) is an
outgoing synonym. -/
def isOutgoingTx (tx : JVal) : Bool :=
  match pyLowerStr (pyOr (objGetP tx "direction") (.str "")) with
  | .ok d => decide (d ∈ outgoingSyn)
  | .error _ => false

/-- The statistics record `enrich_group` computes for the empty group
dict, used by witnesses. -/
def statsEmpty : Stats :=
  { member_count := 0, transaction_count := 0, rawTotal := 0
    unique_counterparties := 0, outgoing_share := 0
    first_seen := none, last_seen := none
    min_transaction_amount := none, max_transaction_amount := none
    fields := [], ptxs := [], display_name := .null }

/-- Concrete report request used by witnesses. -/
def reqW : ReportCreateRequest :=
  { group_id := "GP", reason := "  laundering pattern  ", checks := ["kyc", "sar"] }

/-- Concrete service state used by witnesses. -/
def stW : ServiceState :=
  { groups := [gPosW], reports := [.obj [("group_id", .str "OLD")]] }

/-- Concrete enriched group whose dict carries an explicit null
canonical attributes mapping, exactly what `enrich_group` produces from
the raw payload with that entry (the correlator reads none of the
metric values, so their content is immaterial). -/
def cNullW : EnrichedGroup :=
  { fields := [("group_id", .str "GC"), ("canonical_attributes", .null)]
    metrics := gPosW.metrics
    ptxs := []
    display_name := .str "GC" }

/-- Concrete raw group with dirty leaf values (non-numeric string
amount, unparsable timestamp, null direction, null canonical
attributes, string members value) used by the C2 witness. -/
def gDirtyW : JVal :=
  .obj [("group_id", .str "g1"),
        ("members", .str "ab"),
        ("transactions", .arr [
          .obj [("amount", .str "12x"), ("direction", .null),
                ("timestamp", .str "not-a-date"), ("counterparty_id", .str "c1")],
          .obj [("amount", .null), ("direction", .str "OUT"),
                ("timestamp", .num 0), ("counterparty_id", .bool false)]]),
        ("canonical_attributes", .null)]

/-- Concrete enriched group with dirty-but-convertible stored
transactions used by the C2 network witness. -/
def gNetW : EnrichedGroup :=
  { fields := [("group_id", .str "G1")]
    metrics := gPosW.metrics
    ptxs := [
      { amount := .num 10, direction := .str "IN", counterparty_id := .str "C1"
        timestamp := .null, parsed_timestamp := none },
      { amount := .str "3.5", direction := .null, counterparty_id := .str "C1"
        timestamp := .null, parsed_timestamp := none },
      { amount := .str "xx", direction := .str "out", counterparty_id := .null
        timestamp := .null, parsed_timestamp := none }]
    display_name := .null }

/-- Concrete enriched group for the C2 correlator witness: canonical
attributes absent (so the dict default applies), members with a
signature history containing a null. -/
def gSelW : EnrichedGroup :=
  { fields := [("members", .arr [
      .obj [("record_id", .str "r1"),
            ("signature_history", .arr [.str "sig1", .null])]])]
    metrics := gPosW.metrics
    ptxs := []
    display_name := .null }

/-- Concrete snapshot list with a non-dict entry and dicts with missing
fields, used by the C2 correlator witness. -/
def snapsW : List JVal :=
  [.obj [("record_id", .str "r1")], .str "junk", .obj [],
   .obj [("signature", .null)]]

/-- The network response the builder produces for `gNetW`, used by the
C4 witness. -/
def respW : NetworkResponse :=
  { nodes := [
      { id := .str "G1", label := .str "G1", kind := "group", risk_score := some 14,
        member_count := some 2, total_amount := some 5, highlight := false },
      { id := .str "C1", label := .str "C1", kind := "counterparty", risk_score := none,
        member_count := none, total_amount := none, highlight := false }]
    edges := [
      { source := .str "C1", target := .str "G1", amount := 10, count := 1,
        directions := ["in"] },
      { source := .str "G1", target := .str "C1", amount := 7/2, count := 1,
        directions := [] }] }

/-! ## Theorems -/

/-- C1: for every combination of member count, transaction count, total
amount, unique counterparty count and outgoing share — extreme or
negative amounts and zero counts included — `compute_risk_score`
returns an integer in the closed interval from 1 to 99, because the
final clamp bounds the rounded raw score on both sides. -/
theorem c1_compute_risk_score_bounded (member_count transaction_count : ℕ)
    (total_amount : ℝ) (unique_counterparties : ℕ) (outgoing_share : ℝ) :
    1 ≤ computeRiskScore member_count transaction_count total_amount
      unique_counterparties outgoing_share ∧
    computeRiskScore member_count transaction_count total_amount
      unique_counterparties outgoing_share ≤ 99 := by
  unfold computeRiskScore
  refine ⟨le_max_left _ _, max_le (by norm_num) (min_le_left _ _)⟩

/-- The loop keep-predicate of `filter_groups` agrees pointwise with
the claim-side conjunction. -/
theorem keepGroup_eq_passesClaim (f : GroupFilters) (reported : List JVal)
    (g : EnrichedGroup) : keepGroup f reported g = passesClaim f reported g := by
  unfold keepGroup passesClaim
  by_cases h1 : g.metrics.risk_score < f.min_risk
  · simp [h1, not_le.mpr h1]
  · rw [if_neg h1]
    have h1b : decide (f.min_risk ≤ g.metrics.risk_score) = true :=
      decide_eq_true (not_lt.mp h1)
    by_cases h2 : g.metrics.total_amount < f.min_total ∨
        f.max_total < (g.metrics.total_amount : WithTop ℚ)
    · rw [if_pos h2]
      rcases h2 with h2 | h2
      · simp [not_le.mpr h2]
      · simp [not_le.mpr h2]
    · rw [if_neg h2]
      push_neg at h2
      have h2a : decide (f.min_total ≤ g.metrics.total_amount) = true :=
        decide_eq_true h2.1
      have h2b : decide ((g.metrics.total_amount : WithTop ℚ) ≤ f.max_total) = true :=
        decide_eq_true h2.2
      rw [h1b, h2a, h2b]
      simp only [Bool.true_and]
      by_cases h3 : f.reported_only = true ∧ ¬ g.get "group_id" ∈ reported
      · rw [if_pos (by simp [h3.1, h3.2])]
        simp [h3.1, h3.2]
      · have h3b : (!f.reported_only || decide (g.get "group_id" ∈ reported)) = true := by
          rcases Decidable.not_and_iff_or_not.mp h3 with h | h
          · simp [Bool.eq_false_iff.mpr h]
          · simp [Decidable.not_not.mp h]
        rw [if_neg (by simp_all), h3b]
        simp only [Bool.true_and]
        cases hsd : f.start_date <;> cases hed : f.end_date <;>
          simp [hsd, hed]

/-- C5: `filter_groups` returns exactly the groups satisfying the
conjunction of the risk threshold, the total-amount window, the
reported-only restriction and the date-range overlap (a group lacking
the relevant timestamp never passes a date bound); as a `List.filter`
it preserves relative order and mutates nothing. -/
theorem c5_filter_groups_characterized (groups : List EnrichedGroup)
    (f : GroupFilters) (reported : List JVal) :
    filterGroups groups f reported = groups.filter (passesClaim f reported) := by
  unfold filterGroups
  exact List.filter_congr (fun g _ => keepGroup_eq_passesClaim f reported g)

/-- C9: `filter_groups` is idempotent — filtering its own output with
the same filters and reported ids returns the same list. -/
theorem c9_filter_groups_idempotent (groups : List EnrichedGroup)
    (f : GroupFilters) (reported : List JVal) :
    filterGroups (filterGroups groups f reported) f reported =
      filterGroups groups f reported := by
  unfold filterGroups
  rw [List.filter_filter]
  exact List.filter_congr (fun g _ => Bool.and_self _)

/-- C10: with the default `GroupFilters` (risk threshold 0, amount
window from 0 to infinity, no dates, no reported restriction) the
filter keeps exactly the groups with nonnegative total amount, as long
as every risk score is nonnegative (the enrichment clamp guarantees
scores at least 1). -/
theorem c10_default_filters_nonnegative_total (groups : List EnrichedGroup)
    (reported : List JVal)
    (h : ∀ g ∈ groups, 0 ≤ g.metrics.risk_score) :
    filterGroups groups defaultGroupFilters reported =
      groups.filter (fun g => decide (0 ≤ g.metrics.total_amount)) := by
  unfold filterGroups
  refine List.filter_congr (fun g hg => ?_)
  have hr := h g hg
  unfold keepGroup defaultGroupFilters
  by_cases ht : 0 ≤ g.metrics.total_amount
  · simp [not_lt.mpr hr, not_lt.mpr ht, ht]
  · simp [not_lt.mpr hr, not_le.mp ht, ht]

/-- Witness for C10 at a concrete pair of groups: the negative-total
group is excluded from the otherwise unfiltered listing. -/
theorem c10_witness :
    (∀ g ∈ [gPosW, gNegW], 0 ≤ g.metrics.risk_score) ∧
    filterGroups [gPosW, gNegW] defaultGroupFilters [] =
      List.filter (fun g => decide (0 ≤ g.metrics.total_amount)) [gPosW, gNegW] :=
  ⟨by decide, c10_default_filters_nonnegative_total [gPosW, gNegW] [] (by decide)⟩

theorem foldl_min_le_init [LinearOrder α] (xs : List α) (x : α) :
    xs.foldl min x ≤ x := by
  induction xs generalizing x with
  | nil => simp
  | cons y ys ih => exact le_trans (ih (min x y)) (min_le_left _ _)

theorem foldl_min_le_mem [LinearOrder α] (xs : List α) (x b : α) (hb : b ∈ xs) :
    xs.foldl min x ≤ b := by
  induction xs generalizing x with
  | nil => cases hb
  | cons y ys ih =>
    rcases List.mem_cons.mp hb with rfl | hb
    · exact le_trans (foldl_min_le_init ys (min x b)) (min_le_right _ _)
    · exact ih (min x y) hb

theorem foldl_min_mem [LinearOrder α] (xs : List α) (x : α) :
    xs.foldl min x ∈ x :: xs := by
  induction xs generalizing x with
  | nil => simp
  | cons y ys ih =>
    rw [List.foldl_cons]
    rcases List.mem_cons.mp (ih (min x y)) with h | h
    · rw [h]
      rcases min_choice x y with hc | hc
      · rw [hc]; exact List.mem_cons_self _ _
      · rw [hc]; exact List.mem_cons.mpr (Or.inr (List.mem_cons_self _ _))
    · exact List.mem_cons.mpr (Or.inr (List.mem_cons.mpr (Or.inr h)))

theorem le_foldl_max_init [LinearOrder α] (xs : List α) (x : α) :
    x ≤ xs.foldl max x := by
  induction xs generalizing x with
  | nil => simp
  | cons y ys ih => exact le_trans (le_max_left _ _) (ih (max x y))

theorem le_foldl_max_mem [LinearOrder α] (xs : List α) (x b : α) (hb : b ∈ xs) :
    b ≤ xs.foldl max x := by
  induction xs generalizing x with
  | nil => cases hb
  | cons y ys ih =>
    rcases List.mem_cons.mp hb with rfl | hb
    · exact le_trans (le_max_right _ _) (le_foldl_max_init ys (max x b))
    · exact ih (max x y) hb

theorem listMin?_le [LinearOrder α] {l : List α} {a b : α}
    (h : listMin? l = some a) (hb : b ∈ l) : a ≤ b := by
  cases l with
  | nil => cases h
  | cons x xs =>
    have ha : xs.foldl min x = a := by simpa [listMin?] using h
    rcases List.mem_cons.mp hb with rfl | hb
    · exact ha ▸ foldl_min_le_init xs b
    · exact ha ▸ foldl_min_le_mem xs x b hb

theorem listMin?_mem [LinearOrder α] {l : List α} {a : α}
    (h : listMin? l = some a) : a ∈ l := by
  cases l with
  | nil => cases h
  | cons x xs =>
    have ha : xs.foldl min x = a := by simpa [listMin?] using h
    exact ha ▸ foldl_min_mem xs x

theorem le_listMax? [LinearOrder α] {l : List α} {a b : α}
    (h : listMax? l = some a) (hb : b ∈ l) : b ≤ a := by
  cases l with
  | nil => cases h
  | cons x xs =>
    have ha : xs.foldl max x = a := by simpa [listMax?] using h
    rcases List.mem_cons.mp hb with rfl | hb
    · exact ha ▸ le_foldl_max_init xs b
    · exact ha ▸ le_foldl_max_mem xs x b hb

/-- C7: `summarize_groups` of the empty sequence is the all-absent
stats record (no zero or infinity sentinel), and on a non-empty
sequence of groups carrying the per-group transaction-bound invariant
that enrichment establishes, every present min/max pair is ordered. -/
theorem c7_summarize_groups_bounds :
    summarizeGroups [] =
      { min_total_amount := none, max_total_amount := none
        min_risk := none, max_risk := none
        min_date := none, max_date := none
        min_tx_amount := none, max_tx_amount := none } ∧
    ∀ groups : List EnrichedGroup, groups ≠ [] →
      (∀ g ∈ groups, txBoundsWF g = true) →
      (∀ a b, (summarizeGroups groups).min_total_amount = some a →
        (summarizeGroups groups).max_total_amount = some b → a ≤ b) ∧
      (∀ a b, (summarizeGroups groups).min_risk = some a →
        (summarizeGroups groups).max_risk = some b → a ≤ b) ∧
      (∀ a b, (summarizeGroups groups).min_date = some a →
        (summarizeGroups groups).max_date = some b → a ≤ b) ∧
      (∀ a b, (summarizeGroups groups).min_tx_amount = some a →
        (summarizeGroups groups).max_tx_amount = some b → a ≤ b) := by
  constructor
  · rfl
  · intro groups hne hwf
    cases groups with
    | nil => exact absurd rfl hne
    | cons g gs =>
      refine ⟨?_, ?_, ?_, ?_⟩
      · intro a b ha hb
        simp only [summarizeGroups] at ha hb
        exact le_listMax? hb (listMin?_mem ha)
      · intro a b ha hb
        simp only [summarizeGroups] at ha hb
        exact le_listMax? hb (listMin?_mem ha)
      · intro a b ha hb
        simp only [summarizeGroups] at ha hb
        exact le_listMax? hb (listMin?_mem ha)
      · intro a b ha hb
        simp only [summarizeGroups] at ha hb
        obtain ⟨g0, hg0, hmin⟩ := List.mem_filterMap.mp (listMin?_mem ha)
        have hwf0 := hwf g0 hg0
        unfold txBoundsWF at hwf0
        rw [hmin] at hwf0
        cases hmax : g0.metrics.max_transaction_amount with
        | none => rw [hmax] at hwf0; cases hwf0
        | some m =>
          rw [hmax] at hwf0
          have ham : a ≤ m := of_decide_eq_true hwf0
          have hmmem : m ∈ (g :: gs).filterMap (·.metrics.max_transaction_amount) :=
            List.mem_filterMap.mpr ⟨g0, hg0, hmax⟩
          exact le_trans ham (le_listMax? hb hmmem)

/-- Witness for C7 at a concrete one-group sequence. -/
theorem c7_witness :
    ([gPosW] ≠ ([] : List EnrichedGroup)) ∧
    (∀ g ∈ [gPosW], txBoundsWF g = true) ∧
    ((∀ a b, (summarizeGroups [gPosW]).min_total_amount = some a →
        (summarizeGroups [gPosW]).max_total_amount = some b → a ≤ b) ∧
      (∀ a b, (summarizeGroups [gPosW]).min_risk = some a →
        (summarizeGroups [gPosW]).max_risk = some b → a ≤ b) ∧
      (∀ a b, (summarizeGroups [gPosW]).min_date = some a →
        (summarizeGroups [gPosW]).max_date = some b → a ≤ b) ∧
      (∀ a b, (summarizeGroups [gPosW]).min_tx_amount = some a →
        (summarizeGroups [gPosW]).max_tx_amount = some b → a ≤ b)) :=
  ⟨by decide, by decide,
    c7_summarize_groups_bounds.2 [gPosW] (by decide) (by decide)⟩

/-- C3: `submit_report` fails exactly when the trimmed reason is empty
(the InvalidInput rejection) or the group id resolves to no loaded
group (the NotFound rejection); on success the ledger grows by exactly
one record whose trimmed reason, stringified checks and metric snapshot
(member count, total amount, risk score) are taken from the request and
the target group at submission time; on failure the ledger is
unchanged. -/
theorem c3_submit_report (st : ServiceState) (now : String)
    (req : ReportCreateRequest) :
    (pyStrip req.reason = "" →
      submitReport st now req = (st, .error (.valueError reasonRequiredMsg))) ∧
    (pyStrip req.reason ≠ "" → findGroup st.groups req.group_id = none →
      submitReport st now req =
        (st, .error (.valueError (notFoundMsg req.group_id)))) ∧
    (isOkE (submitReport st now req).2 = true ↔
      pyStrip req.reason ≠ "" ∧ (findGroup st.groups req.group_id).isSome = true) ∧
    (∀ target, pyStrip req.reason ≠ "" →
      findGroup st.groups req.group_id = some target →
      (submitReport st now req).1.reports =
        st.reports ++ [mkReportPayload now req target] ∧
      (submitReport st now req).1.reports.length = st.reports.length + 1 ∧
      (submitReport st now req).2 = .ok (mkReportPayload now req target) ∧
      objGetP (mkReportPayload now req target) "reason" = .str (pyStrip req.reason) ∧
      objGetP (mkReportPayload now req target) "checks" =
        .arr (req.checks.map .str) ∧
      objGetP (objGetP (mkReportPayload now req target) "snapshot") "num_members" =
        .num target.metrics.member_count ∧
      objGetP (objGetP (mkReportPayload now req target) "snapshot") "total_amount" =
        .num target.metrics.total_amount ∧
      objGetP (objGetP (mkReportPayload now req target) "snapshot") "risk_score" =
        .num (target.metrics.risk_score : ℚ)) ∧
    (isOkE (submitReport st now req).2 = false → (submitReport st now req).1 = st) := by
  by_cases hr : pyStrip req.reason = ""
  · refine ⟨fun _ => by simp [submitReport, hr], fun hc => absurd hr hc, ?_, ?_, ?_⟩
    · simp [submitReport, hr, isOkE]
    · intro target hc; exact absurd hr hc
    · intro _; simp [submitReport, hr]
  · cases hfind : findGroup st.groups req.group_id with
    | none =>
      refine ⟨fun hc => absurd hc hr, fun _ _ => by simp [submitReport, hr, hfind], ?_, ?_, ?_⟩
      · simp [submitReport, hr, hfind, isOkE]
      · intro target _ hc; exact Option.noConfusion hc
      · intro _; simp [submitReport, hr, hfind]
    | some target =>
      refine ⟨fun hc => absurd hc hr, fun _ hc => Option.noConfusion hc, ?_, ?_, ?_⟩
      · simp [submitReport, hr, hfind, isOkE]
      · intro t _ hc
        have ht : target = t := Option.some.inj hc
        subst ht
        refine ⟨by simp [submitReport, hr, hfind], by simp [submitReport, hr, hfind],
          by simp [submitReport, hr, hfind], ?_, ?_, ?_, ?_, ?_⟩ <;>
          simp [mkReportPayload, objGetP, dictGetD]
      · intro hc
        simp [submitReport, hr, hfind, isOkE] at hc

/-- Witness for C3 at a concrete state and request. -/
theorem c3_witness :
    pyStrip reqW.reason ≠ "" ∧ findGroup stW.groups reqW.group_id = some gPosW ∧
    ((submitReport stW "2025-01-01T00:00:00Z" reqW).1.reports =
        stW.reports ++ [mkReportPayload "2025-01-01T00:00:00Z" reqW gPosW] ∧
      (submitReport stW "2025-01-01T00:00:00Z" reqW).1.reports.length =
        stW.reports.length + 1 ∧
      (submitReport stW "2025-01-01T00:00:00Z" reqW).2 =
        .ok (mkReportPayload "2025-01-01T00:00:00Z" reqW gPosW) ∧
      objGetP (mkReportPayload "2025-01-01T00:00:00Z" reqW gPosW) "reason" =
        .str (pyStrip reqW.reason) ∧
      objGetP (mkReportPayload "2025-01-01T00:00:00Z" reqW gPosW) "checks" =
        .arr (reqW.checks.map .str) ∧
      objGetP (objGetP (mkReportPayload "2025-01-01T00:00:00Z" reqW gPosW) "snapshot")
          "num_members" = .num gPosW.metrics.member_count ∧
      objGetP (objGetP (mkReportPayload "2025-01-01T00:00:00Z" reqW gPosW) "snapshot")
          "total_amount" = .num gPosW.metrics.total_amount ∧
      objGetP (objGetP (mkReportPayload "2025-01-01T00:00:00Z" reqW gPosW) "snapshot")
          "risk_score" = .num (gPosW.metrics.risk_score : ℚ)) :=
  ⟨by decide, by decide,
    (c3_submit_report stW "2025-01-01T00:00:00Z" reqW).2.2.2.1 gPosW
      (by decide) (by decide)⟩

/-- C2 counterexample: the claim fails as stated.  On a group whose
canonical_attributes entry is an explicit null — one of the malformed
field values the claim quantifies over — `_select_relevant_snapshots`
raises AttributeError at the tax-id probe, because `.get(key, {})`
keeps the explicit None and None has no `.get`. -/
theorem c2_counterexample :
    selectRelevantSnapshots cNullW [JVal.obj []] 25 = .error .attributeError := rfl

theorem isOkE_exists {e : Except PyErr α} (h : isOkE e = true) : ∃ x, e = .ok x := by
  cases e with
  | ok x => exact ⟨x, rfl⟩
  | error _ => cases h

theorem pyLowerStr_pyOr_ok (v : JVal) (h : strOrFalsy v = true) :
    isOkE (pyLowerStr (pyOr v (.str ""))) = true := by
  unfold strOrFalsy at h
  cases htv : truthy v with
  | false => simp [pyOr, htv, pyLowerStr, isOkE]
  | true =>
    rw [htv] at h
    simp only [Bool.not_true, Bool.false_or] at h
    cases v with
    | str s => simp [pyOr, htv, pyLowerStr, isOkE]
    | null => cases h
    | bool b => cases h
    | num q => cases h
    | arr xs => cases h
    | obj kvs => cases h

theorem parseIsoE_ok (v : JVal) (h : strOrFalsy v = true) :
    isOkE (parseIsoE v) = true := by
  unfold strOrFalsy at h
  cases htv : truthy v with
  | false => simp [parseIsoE, htv, isOkE]
  | true =>
    rw [htv] at h
    simp only [Bool.not_true, Bool.false_or] at h
    cases v with
    | str s => simp [parseIsoE, htv, isOkE]
    | null => cases h
    | bool b => cases h
    | num q => cases h
    | arr xs => cases h
    | obj kvs => cases h

theorem viewTx_ok (tx : JVal) (h : enrichTxWF tx = true) :
    isOkE (viewTx tx) = true := by
  cases tx with
  | obj kvs =>
    unfold enrichTxWF at h
    simp only [Bool.and_eq_true] at h
    obtain ⟨⟨hdir, hts⟩, hcp⟩ := h
    have hguard : (truthy (dictGetD kvs "counterparty_id" .null) &&
        !hashable (dictGetD kvs "counterparty_id" .null)) = false := by
      cases htr : truthy (dictGetD kvs "counterparty_id" .null) with
      | false => simp
      | true =>
        rw [htr] at hcp
        simp only [Bool.not_true, Bool.false_or] at hcp
        simp [hcp]
    obtain ⟨d, hd⟩ := isOkE_exists (pyLowerStr_pyOr_ok _ hdir)
    obtain ⟨t, ht⟩ := isOkE_exists (parseIsoE_ok _ hts)
    simp [viewTx, hguard, hd, ht, isOkE]
  | null => cases h
  | bool b => cases h
  | num q => cases h
  | str s => cases h
  | arr xs => cases h

theorem exMapM_ok {f : α → Except PyErr β} {l : List α}
    (h : ∀ a ∈ l, ∃ b, f a = .ok b) : ∃ bs, exMapM f l = .ok bs := by
  induction l with
  | nil => exact ⟨[], rfl⟩
  | cons a as ih =>
    obtain ⟨b, hb⟩ := h a (List.mem_cons_self a as)
    obtain ⟨bs, hbs⟩ := ih (fun x hx => h x (List.mem_cons_of_mem a hx))
    exact ⟨b :: bs, by simp [exMapM, hb, hbs]⟩

theorem exFoldlM_ok {f : σ → α → Except PyErr σ} {l : List α}
    (h : ∀ s, ∀ a ∈ l, ∃ s2, f s a = .ok s2) :
    ∀ init, ∃ s2, exFoldlM f init l = .ok s2 := by
  induction l with
  | nil => exact fun init => ⟨init, rfl⟩
  | cons a as ih =>
    intro init
    obtain ⟨s1, hs1⟩ := h init a (List.mem_cons_self a as)
    obtain ⟨s2, hs2⟩ := ih (fun s x hx => h s x (List.mem_cons_of_mem a hx)) s1
    exact ⟨s2, by simp [exFoldlM, hs1, hs2]⟩

theorem enrichStats_ok (g : JVal) (h : enrichWF g = true) :
    isOkE (enrichStats g) = true := by
  cases g with
  | obj kvs =>
    unfold enrichWF at h
    simp only [Bool.and_eq_true] at h
    obtain ⟨⟨hms, htx⟩, hcanon⟩ := h
    have htxs : ∃ txs, pyOr (dictGetD kvs "transactions" .null) (.arr []) = .arr txs ∧
        txs.all enrichTxWF = true := by
      cases hv : pyOr (dictGetD kvs "transactions" .null) (.arr []) with
      | arr txs => exact ⟨txs, rfl, by rw [hv] at htx; exact htx⟩
      | null => rw [hv] at htx; cases htx
      | bool b => rw [hv] at htx; cases htx
      | num q => rw [hv] at htx; cases htx
      | str s => rw [hv] at htx; cases htx
      | obj o => rw [hv] at htx; cases htx
    obtain ⟨txs, htxeq, htxwf⟩ := htxs
    obtain ⟨views, hviews⟩ := exMapM_ok
      (fun tx hx => isOkE_exists (viewTx_ok tx (List.all_eq_true.mp htxwf tx hx)))
    have hlen : isOkE (pyLen (pyOr (dictGetD kvs "members" .null) (.arr []))) = true := by
      unfold sizedOrFalsy at hms
      cases htr : truthy (dictGetD kvs "members" .null) with
      | false => simp [pyOr, htr, pyLen, isOkE]
      | true =>
        rw [htr] at hms
        simp only [Bool.not_true, Bool.false_or] at hms
        cases hv : dictGetD kvs "members" .null with
        | str str2 => rw [hv] at htr; simp [pyOr, htr, pyLen, isOkE]
        | arr xs => rw [hv] at htr; simp [pyOr, htr, pyLen, isOkE]
        | obj o => rw [hv] at htr; simp [pyOr, htr, pyLen, isOkE]
        | null => rw [hv] at hms; cases hms
        | bool b => rw [hv] at hms; cases hms
        | num q => rw [hv] at hms; cases hms
    obtain ⟨n, hn⟩ := isOkE_exists hlen
    have hname : isOkE (pyGetE (pyOr (dictGetD kvs "canonical_attributes" .null) (.obj []))
        "name" .null) = true := by
      unfold objOrFalsy at hcanon
      cases htr : truthy (dictGetD kvs "canonical_attributes" .null) with
      | false => simp [pyOr, htr, pyGetE, isOkE]
      | true =>
        rw [htr] at hcanon
        simp only [Bool.not_true, Bool.false_or] at hcanon
        cases hv : dictGetD kvs "canonical_attributes" .null with
        | obj o => rw [hv] at htr; simp [pyOr, htr, pyGetE, isOkE]
        | null => rw [hv] at hcanon; cases hcanon
        | bool b => rw [hv] at hcanon; cases hcanon
        | num q => rw [hv] at hcanon; cases hcanon
        | str str2 => rw [hv] at hcanon; cases hcanon
        | arr xs => rw [hv] at hcanon; cases hcanon
    obtain ⟨nv, hnv⟩ := isOkE_exists hname
    simp [enrichStats, htxeq, asList, hviews, hn, hnv, isOkE]
  | null => cases h
  | bool b => cases h
  | num q => cases h
  | str s => cases h
  | arr xs => cases h

theorem matchArrAll_exists {p : JVal → Bool} {v : JVal}
    (h : (match v with | .arr xs => xs.all p | _ => false) = true) :
    ∃ xs, v = .arr xs ∧ xs.all p = true := by
  cases v with
  | arr xs => exact ⟨xs, rfl, h⟩
  | null => cases h
  | bool b => cases h
  | num q => cases h
  | str s => cases h
  | obj o => cases h

theorem isStr_hashable {v : JVal} (h : isStr v = true) : hashable v = true := by
  cases v <;> first | rfl | cases h

theorem ensureCpNode_ok (nodes : List (JVal × NetworkNode)) {cp : JVal}
    (h : isStr cp = true) : isOkE (ensureCpNode nodes cp) = true := by
  cases cp with
  | str s =>
    cases hl : (alLookup nodes (JVal.str s)).isSome <;>
      simp [ensureCpNode, hl, pySlice24, isOkE]
  | null => cases h
  | bool b => cases h
  | num q => cases h
  | arr xs => cases h
  | obj o => cases h

theorem bnpTx_ok (gid : JVal) (st : NetState) (t : PTx)
    (h : networkTxWF t = true) : isOkE (bnpTx gid st t) = true := by
  unfold networkTxWF at h
  cases htr : truthy t.counterparty_id with
  | false => simp [bnpTx, htr, isOkE]
  | true =>
    rw [htr] at h
    simp only [Bool.not_true, Bool.false_or, Bool.and_eq_true] at h
    obtain ⟨⟨hstr, hfl⟩, hdir⟩ := h
    obtain ⟨nodes1, hnodes⟩ := isOkE_exists (ensureCpNode_ok st.nodes hstr)
    obtain ⟨q, hq⟩ := isOkE_exists hfl
    obtain ⟨d, hd⟩ := isOkE_exists (pyLowerStr_pyOr_ok _ hdir)
    simp [bnpTx, htr, isStr_hashable hstr, hnodes, hq, hd, isOkE]

theorem bnpGroup_ok (hl : Bool) (reported : List JVal) (st : NetState)
    (g : EnrichedGroup) (h : networkGroupWF g = true) :
    isOkE (bnpGroup hl reported st g) = true := by
  unfold networkGroupWF at h
  cases htr : truthy (g.get "group_id") with
  | false => simp [bnpGroup, htr, isOkE]
  | true =>
    rw [htr] at h
    simp only [Bool.not_true, Bool.false_or, Bool.and_eq_true] at h
    obtain ⟨hstr, htxs⟩ := h
    have hfold := exFoldlM_ok
      (fun s t ht => isOkE_exists
        (bnpTx_ok (g.get "group_id") s t (List.all_eq_true.mp htxs t ht)))
    obtain ⟨st2, hst2⟩ := hfold
      { st with nodes := alUpsert st.nodes (g.get "group_id") (fun _ => bnpGroupNode hl reported g) }
    simp [bnpGroup, htr, isStr_hashable hstr, hst2, isOkE]

theorem buildNetworkPayload_ok (groups : List EnrichedGroup)
    (reported : List JVal) (hl : Bool)
    (h : ∀ g ∈ groups, networkGroupWF g = true) :
    isOkE (buildNetworkPayload groups reported hl) = true := by
  obtain ⟨st, hst⟩ := exFoldlM_ok
    (fun s g hg => isOkE_exists (bnpGroup_ok hl reported s g (h g hg)))
    { nodes := [], edges := [] }
  simp [buildNetworkPayload, hst, isOkE]

theorem pySetIn_eq {v : JVal} (h : hashable v = true) (s : List JVal) :
    pySetIn v s = .ok (decide (v ∈ s)) := by
  simp [pySetIn, h]

theorem buildMemberIds_ok (g : EnrichedGroup) (h : selectGroupWF g = true) :
    isOkE (buildMemberIds g) = true := by
  unfold selectGroupWF at h
  simp only [Bool.and_eq_true] at h
  obtain ⟨hms, _⟩ := h
  obtain ⟨ms, hmseq, hmswf⟩ := matchArrAll_exists hms
  obtain ⟨out, hout⟩ := exFoldlM_ok (f := memberIdStep) (l := ms)
    (fun s m hm => isOkE_exists (by
      have hwfm := List.all_eq_true.mp hmswf m hm
      unfold selectMemberWF at hwfm
      cases m with
      | obj mkvs =>
        simp only [Bool.and_eq_true] at hwfm
        obtain ⟨hrid, _⟩ := hwfm
        cases htr : truthy (dictGetD mkvs "record_id" .null) with
        | false => simp [memberIdStep, pyGetE, htr, isOkE]
        | true =>
          rw [htr] at hrid
          simp only [Bool.not_true, Bool.false_or] at hrid
          simp [memberIdStep, pyGetE, htr, pySetAdd, hrid, isOkE]
      | null => cases hwfm
      | bool b => cases hwfm
      | num q => cases hwfm
      | str s2 => cases hwfm
      | arr xs => cases hwfm)) []
  simp [buildMemberIds, hmseq, asList, hout, isOkE]

theorem buildSigSet_ok (g : EnrichedGroup) (h : selectGroupWF g = true) :
    isOkE (buildSigSet g) = true := by
  unfold selectGroupWF at h
  simp only [Bool.and_eq_true] at h
  obtain ⟨hms, _⟩ := h
  obtain ⟨ms, hmseq, hmswf⟩ := matchArrAll_exists hms
  obtain ⟨out, hout⟩ := exFoldlM_ok (f := sigSetStep) (l := ms)
    (fun s m hm => isOkE_exists (by
      have hwfm := List.all_eq_true.mp hmswf m hm
      unfold selectMemberWF at hwfm
      cases m with
      | obj mkvs =>
        simp only [Bool.and_eq_true] at hwfm
        obtain ⟨_, hsh⟩ := hwfm
        obtain ⟨sigs, hsigeq, hsigwf⟩ := matchArrAll_exists hsh
        have hinner := exFoldlM_ok (f := pySetAdd) (l := sigs)
          (fun acc sg hsg => isOkE_exists (by
            simp [pySetAdd, List.all_eq_true.mp hsigwf sg hsg, isOkE]))
        obtain ⟨s2, hs2⟩ := hinner s
        simp [sigSetStep, pyGetE, hsigeq, asList, hs2, isOkE]
      | null => cases hwfm
      | bool b => cases hwfm
      | num q => cases hwfm
      | str s2 => cases hwfm
      | arr xs => cases hwfm)) []
  simp [buildSigSet, hmseq, asList, hout, isOkE]

theorem snapStep_ok (memIds sigSet : List JVal) (tax : JVal) (s : JVal)
    (hsnap : snapWF (truthy tax) s = true) (matched : List JVal) :
    isOkE (snapStep memIds sigSet tax matched s) = true := by
  cases s with
  | obj skvs =>
    unfold snapWF at hsnap
    simp only [Bool.and_eq_true] at hsnap
    obtain ⟨⟨hrid, hsig⟩, htax⟩ := hsnap
    have h1 := pySetIn_eq hrid memIds
    have h2 := pySetIn_eq hsig sigSet
    cases hmem1 : decide (dictGetD skvs "record_id" .null ∈ memIds) with
    | true => rw [hmem1] at h1; simp [snapStep, h1, isOkE]
    | false =>
      rw [hmem1] at h1
      cases hmem2 : decide (dictGetD skvs "signature" .null ∈ sigSet) with
      | true => rw [hmem2] at h2; simp [snapStep, h1, h2, isOkE]
      | false =>
        rw [hmem2] at h2
        cases htr : truthy tax with
        | false => simp [snapStep, h1, h2, htr, isOkE]
        | true =>
          rw [htr] at htax
          simp only [Bool.not_true, Bool.false_or] at htax
          cases hnv : dictGetD skvs "normalized_attributes" (.obj []) with
          | obj o => simp [snapStep, h1, h2, htr, hnv, pyGetE, isOkE]
          | null => rw [hnv] at htax; cases htax
          | bool b => rw [hnv] at htax; cases htax
          | num q => rw [hnv] at htax; cases htax
          | str s2 => rw [hnv] at htax; cases htax
          | arr xs => rw [hnv] at htax; cases htax
  | null => simp [snapStep, isOkE]
  | bool b => simp [snapStep, isOkE]
  | num q => simp [snapStep, isOkE]
  | str s2 => simp [snapStep, isOkE]
  | arr xs => simp [snapStep, isOkE]

theorem selectTax_eq (g : EnrichedGroup) (h : selectGroupWF g = true) :
    pyGetE (dictGetD g.fields "canonical_attributes" (.obj [])) "tax_id" .null =
      .ok (taxIdP g) := by
  unfold selectGroupWF at h
  simp only [Bool.and_eq_true] at h
  obtain ⟨_, hcan⟩ := h
  unfold taxIdP
  cases hv : dictGetD g.fields "canonical_attributes" (.obj []) with
  | obj o => simp [pyGetE, objGetP]
  | null => rw [hv] at hcan; cases hcan
  | bool b => rw [hv] at hcan; cases hcan
  | num q => rw [hv] at hcan; cases hcan
  | str s2 => rw [hv] at hcan; cases hcan
  | arr xs => rw [hv] at hcan; cases hcan

theorem selectRelevantSnapshots_ok (g : EnrichedGroup) (snaps : List JVal)
    (limit : ℕ) (hg : selectGroupWF g = true)
    (hs : ∀ s ∈ snaps, snapWF (truthy (taxIdP g)) s = true) :
    isOkE (selectRelevantSnapshots g snaps limit) = true := by
  cases hemp : snaps.isEmpty with
  | true => simp [selectRelevantSnapshots, hemp, isOkE]
  | false =>
    obtain ⟨memIds, hmem⟩ := isOkE_exists (buildMemberIds_ok g hg)
    obtain ⟨sigSet, hsig⟩ := isOkE_exists (buildSigSet_ok g hg)
    obtain ⟨out, hout⟩ := exFoldlM_ok (l := snaps)
      (fun acc s hsm => isOkE_exists (snapStep_ok memIds sigSet (taxIdP g) s
        (hs s hsm) acc)) []
    simp [selectRelevantSnapshots, hemp, hmem, hsig, selectTax_eq g hg, hout, isOkE]

/-- C2 amended: the three data-processing operations complete without
raising under leaf well-formedness of the dirty fields.  `enrich_group`
absorbs arbitrary amounts, unparsable string timestamps, falsy fields
and null canonical attributes; the network builder additionally needs
each truthy counterparty to be a string and each amount to convert
under `float`; the correlator additionally needs the canonical and
normalized attribute entries to be mappings when present (the
counterexample shows the explicit-null case raising). -/
theorem c2_no_raise_under_wf :
    (∀ g, enrichWF g = true → isOkE (enrichGroup g) = true) ∧
    (∀ groups reported hl, (∀ g ∈ groups, networkGroupWF g = true) →
      isOkE (buildNetworkPayload groups reported hl) = true) ∧
    (∀ g snaps limit, selectGroupWF g = true →
      (∀ s ∈ snaps, snapWF (truthy (taxIdP g)) s = true) →
      isOkE (selectRelevantSnapshots g snaps limit) = true) := by
  refine ⟨?_, fun groups reported hl h => buildNetworkPayload_ok groups reported hl h,
    fun g snaps limit hg hs => selectRelevantSnapshots_ok g snaps limit hg hs⟩
  intro g hwf
  obtain ⟨s, hs⟩ := isOkE_exists (enrichStats_ok g hwf)
  simp [enrichGroup, hs, isOkE, Except.map]

/-- Witness for the amended C2 at concrete dirty inputs. -/
theorem c2_witness :
    isOkE (enrichGroup gDirtyW) = true ∧
    isOkE (buildNetworkPayload [gNetW] [] true) = true ∧
    isOkE (selectRelevantSnapshots gSelW snapsW 25) = true :=
  ⟨c2_no_raise_under_wf.1 gDirtyW (by decide),
   c2_no_raise_under_wf.2.1 [gNetW] [] true (by decide),
   c2_no_raise_under_wf.2.2 gSelW snapsW 25 (by decide) (by decide)⟩

theorem exFoldlM_eq_foldl {f : σ → α → Except PyErr σ} {pg : σ → α → σ}
    (hrel : ∀ s a s2, f s a = .ok s2 → s2 = pg s a) :
    ∀ {l : List α} (init out : σ), exFoldlM f init l = .ok out →
      out = l.foldl pg init := by
  intro l
  induction l with
  | nil => intro init out h; cases h; rfl
  | cons a as ih =>
    intro init out h
    unfold exFoldlM at h
    cases hf : f init a with
    | error e => rw [hf] at h; cases h
    | ok s1 =>
      rw [hf] at h
      rw [List.foldl_cons, ← hrel init a s1 hf]
      exact ih s1 out h

theorem pySetAdd_rel (s : List JVal) (v : JVal) (s2 : List JVal)
    (h : pySetAdd s v = .ok s2) : s2 = setInsert s v := by
  unfold pySetAdd at h
  cases hh : hashable v with
  | false => rw [hh] at h; cases h
  | true =>
    rw [hh] at h
    simp only [if_true] at h
    injection h with h
    rw [← h]; rfl

theorem memberIdStep_rel (s : List JVal) (m : JVal) (s2 : List JVal)
    (h : memberIdStep s m = .ok s2) : s2 = memberIdStepP s m := by
  cases m with
  | obj mkvs =>
    simp only [memberIdStep, pyGetE] at h
    simp only [memberIdStepP, objGetP]
    cases htr : truthy (dictGetD mkvs "record_id" .null) with
    | false => rw [htr] at h; injection h with h; simp [htr, ← h]
    | true =>
      rw [htr] at h
      simp only [if_true] at h
      simp only [htr, if_true]
      exact pySetAdd_rel _ _ _ h
  | null => cases h
  | bool b => cases h
  | num q => cases h
  | str s3 => cases h
  | arr xs => cases h

theorem sigSetStep_rel (s : List JVal) (m : JVal) (s2 : List JVal)
    (h : sigSetStep s m = .ok s2) : s2 = sigSetStepP s m := by
  cases m with
  | obj mkvs =>
    simp only [sigSetStep, pyGetE] at h
    simp only [sigSetStepP, objGetP]
    cases hsl : asList (pyOr (dictGetD mkvs "signature_history" .null) (.arr [])) with
    | error e => rw [hsl] at h; cases h
    | ok sigs =>
      rw [hsl] at h
      exact exFoldlM_eq_foldl pySetAdd_rel s s2 h
  | null => cases h
  | bool b => cases h
  | num q => cases h
  | str s3 => cases h
  | arr xs => cases h

theorem pyGetE_null_eq (v : JVal) (k : String) (t : JVal)
    (h : pyGetE v k .null = .ok t) : t = objGetP v k := by
  cases v with
  | obj kvs =>
    simp only [pyGetE] at h
    injection h with h
    simp [objGetP, ← h]
  | null => cases h
  | bool b => cases h
  | num q => cases h
  | str s => cases h
  | arr xs => cases h

theorem snapStep_rel (memIds sigSet : List JVal) (tax : JVal) :
    ∀ (matched : List JVal) (s : JVal) (out : List JVal),
      snapStep memIds sigSet tax matched s = .ok out →
      out = (if snapPredP memIds sigSet tax s then matched ++ [s] else matched) := by
  intro matched s out h
  cases s with
  | obj skvs =>
    simp only [snapStep] at h
    simp only [snapPredP]
    cases hh1 : hashable (dictGetD skvs "record_id" .null) with
    | false =>
      simp only [pySetIn, hh1, Bool.false_eq_true, if_false] at h
      exact Except.noConfusion h
    | true =>
      by_cases hmem1 : dictGetD skvs "record_id" .null ∈ memIds
      · have h1 : pySetIn (dictGetD skvs "record_id" .null) memIds = .ok true := by
          simp [pySetIn, hh1, hmem1]
        simp only [h1] at h
        injection h with h
        simp [hmem1, ← h]
      · have h1 : pySetIn (dictGetD skvs "record_id" .null) memIds = .ok false := by
          simp [pySetIn, hh1, hmem1]
        simp only [h1] at h
        cases hh2 : hashable (dictGetD skvs "signature" .null) with
        | false =>
          simp only [pySetIn, hh2, Bool.false_eq_true, if_false] at h
          exact Except.noConfusion h
        | true =>
          by_cases hmem2 : dictGetD skvs "signature" .null ∈ sigSet
          · have h2 : pySetIn (dictGetD skvs "signature" .null) sigSet = .ok true := by
              simp [pySetIn, hh2, hmem2]
            simp only [h2] at h
            injection h with h
            simp [hmem1, hmem2, ← h]
          · have h2 : pySetIn (dictGetD skvs "signature" .null) sigSet = .ok false := by
              simp [pySetIn, hh2, hmem2]
            simp only [h2] at h
            by_cases htr : truthy tax = true
            · simp only [htr, if_true] at h
              cases hno : pyGetE (dictGetD skvs "normalized_attributes" (.obj []))
                  "tax_id" .null with
              | error e =>
                simp only [hno] at h
                exact Except.noConfusion h
              | ok t2 =>
                simp only [hno] at h
                injection h with h
                have ht2 := pyGetE_null_eq _ _ _ hno
                subst ht2
                by_cases heq : objGetP (dictGetD skvs "normalized_attributes"
                  (.obj [])) "tax_id" = tax
                · rw [if_pos heq] at h
                  simp [hmem1, hmem2, htr, heq, ← h]
                · rw [if_neg heq] at h
                  simp [hmem1, hmem2, htr, heq, ← h]
            · have htrf : truthy tax = false := by
                cases hv : truthy tax
                · rfl
                · exact absurd hv htr
              simp only [htrf, Bool.false_eq_true, if_false] at h
              injection h with h
              simp [hmem1, hmem2, htrf, ← h]
  | null => injection h with h; simp [snapPredP, ← h]
  | bool b => injection h with h; simp [snapPredP, ← h]
  | num q => injection h with h; simp [snapPredP, ← h]
  | str s2 => injection h with h; simp [snapPredP, ← h]
  | arr xs => injection h with h; simp [snapPredP, ← h]

theorem foldl_append_filter (p : α → Bool) :
    ∀ (l acc : List α),
      l.foldl (fun acc s => if p s then acc ++ [s] else acc) acc =
        acc ++ l.filter p := by
  intro l
  induction l with
  | nil => intro acc; simp
  | cons a as ih =>
    intro acc
    rw [List.foldl_cons]
    cases hp : p a with
    | true => simp [hp, ih, List.filter_cons]
    | false => simp [hp, ih, List.filter_cons]

theorem buildMemberIds_eq (g : EnrichedGroup) (memIds : List JVal)
    (h : buildMemberIds g = .ok memIds) : memIds = memberIdsP g := by
  unfold buildMemberIds at h
  unfold memberIdsP membersListP
  cases hms : asList (pyOr (g.get "members") (.arr [])) with
  | error e => rw [hms] at h; cases h
  | ok ms => rw [hms] at h; exact exFoldlM_eq_foldl memberIdStep_rel _ _ h

theorem buildSigSet_eq (g : EnrichedGroup) (sigSet : List JVal)
    (h : buildSigSet g = .ok sigSet) : sigSet = sigSetP g := by
  unfold buildSigSet at h
  unfold sigSetP membersListP
  cases hms : asList (pyOr (g.get "members") (.arr [])) with
  | error e => rw [hms] at h; cases h
  | ok ms => rw [hms] at h; exact exFoldlM_eq_foldl sigSetStep_rel _ _ h

/-- C6: whenever `_select_relevant_snapshots` completes, its result is
the order-preserving filter of the snapshot list by the three-way
matching disjunction, truncated to `limit` (25 at the call sites): at
most `limit` snapshots, each input occurrence used at most once (no
duplicates when the input has none), and a snapshot included exactly
when its record id is a member record id, or its signature lies in the
union of the member signature histories, or the truthy canonical tax id
equals its normalized tax id. -/
theorem c6_select_relevant_snapshots (g : EnrichedGroup) (snaps : List JVal)
    (limit : ℕ) (out : List JVal)
    (h : selectRelevantSnapshots g snaps limit = .ok out) :
    out = (snaps.filter (snapMatches g)).take limit ∧
    out.length ≤ limit ∧
    (snaps.Nodup → out.Nodup) := by
  unfold selectRelevantSnapshots at h
  cases hemp : snaps.isEmpty with
  | true =>
    simp only [hemp, if_true] at h
    injection h with h
    have hnil : snaps = [] := List.isEmpty_iff.mp hemp
    subst hnil
    simp [← h]
  | false =>
    simp only [hemp, Bool.false_eq_true, if_false] at h
    cases hm1 : buildMemberIds g with
    | error e => simp only [hm1] at h; exact absurd h (by simp)
    | ok memIds =>
      simp only [hm1] at h
      cases hm2 : buildSigSet g with
      | error e => simp only [hm2] at h; exact absurd h (by simp)
      | ok sigSet =>
        simp only [hm2] at h
        cases hm3 : pyGetE (dictGetD g.fields "canonical_attributes" (.obj []))
            "tax_id" .null with
        | error e => simp only [hm3] at h; exact absurd h (by simp)
        | ok tax =>
          simp only [hm3] at h
          cases hm4 : exFoldlM (snapStep memIds sigSet tax) [] snaps with
          | error e => simp only [hm4] at h; exact absurd h (by simp)
          | ok matched =>
            simp only [hm4] at h
            injection h with h
            have hmatched : matched =
                snaps.foldl (fun acc s =>
                  if snapPredP memIds sigSet tax s then acc ++ [s] else acc) [] :=
              exFoldlM_eq_foldl (snapStep_rel memIds sigSet tax) _ _ hm4
            rw [foldl_append_filter, List.nil_append] at hmatched
            have htax : tax = taxIdP g := by
              have := pyGetE_null_eq _ _ _ hm3
              rw [this]; rfl
            have hout : out = (snaps.filter (snapMatches g)).take limit := by
              rw [← h, hmatched]
              have hpred : snapPredP memIds sigSet tax = snapMatches g := by
                rw [buildMemberIds_eq g memIds hm1, buildSigSet_eq g sigSet hm2, htax]
                rfl
              rw [hpred]
            refine ⟨hout, ?_, ?_⟩
            · rw [hout]; exact List.length_take_le _ _
            · intro hnd
              rw [hout]
              exact List.Nodup.sublist
                (List.Sublist.trans (List.take_sublist _ _) (List.filter_sublist _))
                hnd

/-- Witness for C6 at a concrete group and snapshot list. -/
theorem c6_witness :
    ([.obj [("record_id", .str "r1")], .obj [], .obj [("signature", .null)]] :
        List JVal) =
      (snapsW.filter (snapMatches gSelW)).take 25 ∧
    ([.obj [("record_id", .str "r1")], .obj [], .obj [("signature", .null)]] :
        List JVal).length ≤ 25 ∧
    (snapsW.Nodup →
      ([.obj [("record_id", .str "r1")], .obj [], .obj [("signature", .null)]] :
        List JVal).Nodup) :=
  c6_select_relevant_snapshots gSelW snapsW 25
    [.obj [("record_id", .str "r1")], .obj [], .obj [("signature", .null)]] rfl

theorem viewTx_dir (tx : JVal) (v : TxView) (h : viewTx tx = .ok v) :
    isOutgoingTx tx = decide (v.dir ∈ outgoingSyn) := by
  cases tx with
  | obj kvs =>
    simp only [viewTx] at h
    cases hg : (truthy (dictGetD kvs "counterparty_id" .null) &&
        !hashable (dictGetD kvs "counterparty_id" .null)) with
    | true => simp only [hg, if_true] at h; exact Except.noConfusion h
    | false =>
      simp only [hg, Bool.false_eq_true, if_false] at h
      cases hld : pyLowerStr (pyOr (dictGetD kvs "direction" .null) (.str "")) with
      | error e => simp only [hld] at h; exact Except.noConfusion h
      | ok d =>
        simp only [hld] at h
        cases hts : parseIsoE (dictGetD kvs "timestamp" .null) with
        | error e => simp only [hts] at h; exact Except.noConfusion h
        | ok t =>
          simp only [hts] at h
          injection h with h
          simp only [isOutgoingTx, objGetP, hld, ← h]
  | null => exact Except.noConfusion h
  | bool b => exact Except.noConfusion h
  | num q => exact Except.noConfusion h
  | str s2 => exact Except.noConfusion h
  | arr xs => exact Except.noConfusion h

theorem exMapM_countP {f : α → Except PyErr β} {p : β → Bool} {q : α → Bool}
    (hrel : ∀ a b, f a = .ok b → q a = p b) :
    ∀ {l : List α} {bs : List β}, exMapM f l = .ok bs →
      bs.countP p = l.countP q := by
  intro l
  induction l with
  | nil => intro bs h; cases h; rfl
  | cons a as ih =>
    intro bs h
    unfold exMapM at h
    cases hf : f a with
    | error e => rw [hf] at h; cases h
    | ok b =>
      rw [hf] at h
      cases hrest : exMapM f as with
      | error e => rw [hrest] at h; cases h
      | ok bs2 =>
        rw [hrest] at h
        injection h with h
        rw [← h, List.countP_cons, List.countP_cons, ih hrest, hrel a b hf]

theorem exMapM_length {f : α → Except PyErr β} :
    ∀ {l : List α} {bs : List β}, exMapM f l = .ok bs → bs.length = l.length := by
  intro l
  induction l with
  | nil => intro bs h; cases h; rfl
  | cons a as ih =>
    intro bs h
    unfold exMapM at h
    cases hf : f a with
    | error e => rw [hf] at h; cases h
    | ok b =>
      rw [hf] at h
      cases hrest : exMapM f as with
      | error e => rw [hrest] at h; cases h
      | ok bs2 =>
        rw [hrest] at h
        injection h with h
        rw [← h]
        simp [ih hrest]

/-- C8: when enrichment completes, the outgoing share stored for a
group equals the number of transactions whose case-normalized direction
is an outgoing synonym divided by the transaction count, is 0 on zero
transactions, and always lies between 0 and 1 (the metric the source
stores as outgoing_ratio). -/
theorem c8_outgoing_share (kvs : List (String × JVal)) (s : Stats)
    (h : enrichStats (.obj kvs) = .ok s) :
    enrichGroup (.obj kvs) = .ok (finalize s) ∧
    (finalize s).metrics.outgoing_share = s.outgoing_share ∧
    ∃ txs, asList (pyOr (dictGetD kvs "transactions" .null) (.arr [])) = .ok txs ∧
      s.outgoing_share = (if txs.length = 0 then 0
        else (txs.countP isOutgoingTx : ℚ) / (txs.length : ℚ)) ∧
      (s.transaction_count = 0 → s.outgoing_share = 0) ∧
      0 ≤ s.outgoing_share ∧ s.outgoing_share ≤ 1 := by
  refine ⟨by simp [enrichGroup, h, Except.map], rfl, ?_⟩
  simp only [enrichStats] at h
  cases hl : asList (pyOr (dictGetD kvs "transactions" .null) (.arr [])) with
  | error e => simp only [hl] at h; exact absurd h (by simp)
  | ok txs =>
    simp only [hl] at h
    cases hv : exMapM viewTx txs with
    | error e => simp only [hv] at h; exact absurd h (by simp)
    | ok views =>
      simp only [hv] at h
      cases hn : pyLen (pyOr (dictGetD kvs "members" .null) (.arr [])) with
      | error e => simp only [hn] at h; exact absurd h (by simp)
      | ok n =>
        simp only [hn] at h
        cases hc : pyGetE (pyOr (dictGetD kvs "canonical_attributes" .null) (.obj []))
            "name" .null with
        | error e => simp only [hc] at h; exact absurd h (by simp)
        | ok nameV =>
          simp only [hc] at h
          injection h with h
          refine ⟨txs, rfl, ?_, ?_, ?_, ?_⟩
          · rw [← h]
            simp only []
            rw [exMapM_countP (fun a b hab => viewTx_dir a b hab) hv]
          · intro h0
            rw [← h] at h0 ⊢
            simp only [] at h0 ⊢
            simp [h0]
          · rw [← h]
            simp only []
            by_cases h0 : txs.length = 0
            · simp [h0]
            · simp only [h0, if_false]
              positivity
          · rw [← h]
            simp only []
            by_cases h0 : txs.length = 0
            · simp [h0]
            · simp only [h0, if_false]
              rw [div_le_one (by positivity)]
              have hle : views.countP (fun v => v.dir ∈ outgoingSyn) ≤ txs.length := by
                calc views.countP (fun v => v.dir ∈ outgoingSyn) ≤ views.length :=
                      List.countP_le_length _
                  _ = txs.length := exMapM_length hv
              exact_mod_cast hle

/-- Witness for C8 at the empty group dict. -/
theorem c8_witness :
    enrichStats (.obj []) = .ok statsEmpty ∧
    (enrichGroup (.obj []) = .ok (finalize statsEmpty) ∧
      (finalize statsEmpty).metrics.outgoing_share = statsEmpty.outgoing_share ∧
      ∃ txs, asList (pyOr (dictGetD [] "transactions" .null) (.arr [])) = .ok txs ∧
        statsEmpty.outgoing_share = (if txs.length = 0 then 0
          else (txs.countP isOutgoingTx : ℚ) / (txs.length : ℚ)) ∧
        (statsEmpty.transaction_count = 0 → statsEmpty.outgoing_share = 0) ∧
        0 ≤ statsEmpty.outgoing_share ∧ statsEmpty.outgoing_share ≤ 1) :=
  ⟨rfl, c8_outgoing_share [] statsEmpty rfl⟩

theorem bnpTx_events (gid : JVal) (st : NetState) (t : PTx) (st2 : NetState)
    (h : bnpTx gid st t = .ok st2) :
    ∃ o, txEvent gid t = .ok o ∧
      st2.edges = (match o with
        | none => st.edges
        | some ev => stepEdges st.edges ev) := by
  simp only [bnpTx] at h
  cases htr : truthy t.counterparty_id with
  | false =>
    simp only [htr, Bool.not_false, if_true] at h
    injection h with h
    exact ⟨none, by simp [txEvent, htr], by rw [← h]⟩
  | true =>
    simp only [htr, Bool.not_true, Bool.false_eq_true, if_false] at h
    cases hh : hashable t.counterparty_id with
    | false =>
      simp only [hh, Bool.not_false, if_true] at h
      exact Except.noConfusion h
    | true =>
      simp only [hh, Bool.not_true, Bool.false_eq_true, if_false] at h
      cases hen : ensureCpNode st.nodes t.counterparty_id with
      | error e => simp only [hen] at h; exact Except.noConfusion h
      | ok nodes1 =>
        simp only [hen] at h
        cases hfl : pyFloat (pyOr t.amount (.num 0)) with
        | error e => simp only [hfl] at h; exact Except.noConfusion h
        | ok amount =>
          simp only [hfl] at h
          cases hld : pyLowerStr (pyOr t.direction (.str "")) with
          | error e => simp only [hld] at h; exact Except.noConfusion h
          | ok dir =>
            simp only [hld] at h
            injection h with h
            refine ⟨some { key := if dir ∈ incomingSyn then (t.counterparty_id, gid)
                else (gid, t.counterparty_id), amount := amount, dir := dir },
              by simp [txEvent, htr, hfl, hld], ?_⟩
            rw [← h]
            simp [stepEdges]

theorem bnpTx_fold_events (gid : JVal) :
    ∀ (ts : List PTx) (st0 st2 : NetState),
      exFoldlM (bnpTx gid) st0 ts = .ok st2 →
      ∃ opts, exMapM (txEvent gid) ts = .ok opts ∧
        st2.edges = (opts.filterMap id).foldl stepEdges st0.edges := by
  intro ts
  induction ts with
  | nil =>
    intro st0 st2 h
    cases h
    exact ⟨[], rfl, rfl⟩
  | cons t ts ih =>
    intro st0 st2 h
    unfold exFoldlM at h
    cases hf : bnpTx gid st0 t with
    | error e => rw [hf] at h; cases h
    | ok st1 =>
      rw [hf] at h
      obtain ⟨o, ho, hedges⟩ := bnpTx_events gid st0 t st1 hf
      obtain ⟨opts, hopts, hsteps⟩ := ih st1 st2 h
      refine ⟨o :: opts, by simp [exMapM, ho, hopts], ?_⟩
      cases o with
      | none => simpa [hedges] using hsteps
      | some ev => simpa [hedges] using hsteps

theorem bnpGroup_events (hl : Bool) (reported : List JVal) (st : NetState)
    (g : EnrichedGroup) (st2 : NetState)
    (h : bnpGroup hl reported st g = .ok st2) :
    ∃ evs, groupEvents g = .ok evs ∧
      st2.edges = evs.foldl stepEdges st.edges := by
  simp only [bnpGroup] at h
  cases htr : truthy (g.get "group_id") with
  | false =>
    simp only [htr, Bool.not_false, if_true] at h
    injection h with h
    exact ⟨[], by simp [groupEvents, htr], by rw [← h]; rfl⟩

  | true =>
    simp only [htr, Bool.not_true, Bool.false_eq_true, if_false] at h
    cases hh : hashable (g.get "group_id") with
    | false =>
      simp only [hh, Bool.not_false, if_true] at h
      exact Except.noConfusion h
    | true =>
      simp only [hh, Bool.not_true, Bool.false_eq_true, if_false] at h
      obtain ⟨opts, hopts, hsteps⟩ := bnpTx_fold_events (g.get "group_id") g.ptxs _ st2 h
      exact ⟨opts.filterMap id, by simp [groupEvents, htr, hopts], hsteps⟩

theorem bnp_fold_events (hl : Bool) (reported : List JVal) :
    ∀ (gs : List EnrichedGroup) (st st2 : NetState),
      exFoldlM (bnpGroup hl reported) st gs = .ok st2 →
      ∃ evs, edgeEvents gs = .ok evs ∧
        st2.edges = evs.foldl stepEdges st.edges := by
  intro gs
  induction gs with
  | nil =>
    intro st st2 h
    cases h
    exact ⟨[], rfl, rfl⟩
  | cons g gs ih =>
    intro st st2 h
    unfold exFoldlM at h
    cases hf : bnpGroup hl reported st g with
    | error e => rw [hf] at h; cases h
    | ok st1 =>
      rw [hf] at h
      obtain ⟨gevs, hgevs, hedges1⟩ := bnpGroup_events hl reported st g st1 hf
      obtain ⟨evs, hevs, hedges2⟩ := ih st1 st2 h
      unfold edgeEvents at hevs
      cases hm : exMapM groupEvents gs with
      | error e => rw [hm] at hevs; cases hevs
      | ok ls =>
        rw [hm] at hevs
        injection hevs with hevs
        refine ⟨gevs ++ ls.flatten, by simp [edgeEvents, exMapM, hgevs, hm], ?_⟩
        rw [List.foldl_append, ← hedges1, hevs]
        exact hedges2

theorem alLookup_alUpsert [DecidableEq κ] (l : List (κ × α)) (k k2 : κ)
    (f : Option α → α) :
    alLookup (alUpsert l k f) k2 =
      if k = k2 then some (f (alLookup l k)) else alLookup l k2 := by
  induction l with
  | nil =>
    by_cases hk : k = k2 <;> simp [alUpsert, alLookup, hk]
  | cons kv rest ih =>
    obtain ⟨k1, v1⟩ := kv
    by_cases h1 : k1 = k
    · subst h1
      by_cases h2 : k1 = k2 <;> simp [alUpsert, alLookup, h2]
    · by_cases h2 : k1 = k2
      · subst h2
        simp [alUpsert, alLookup, h1, Ne.symm h1]
      · simp [alUpsert, alLookup, h1, h2, ih]

/-- One step of the per-key accumulation on an optional edge entry. -/
def accumStep (d : Option EdgeData) (ev : EdgeEvent) : Option EdgeData :=
  some (accumOne (d.getD emptyEdgeData) ev.amount ev.dir)

theorem lookup_foldl_stepEdges :
    ∀ (evs : List EdgeEvent) (edges : List ((JVal × JVal) × EdgeData))
      (k : JVal × JVal),
      alLookup (evs.foldl stepEdges edges) k =
        (evs.filter (fun ev => ev.key = k)).foldl accumStep (alLookup edges k) := by
  intro evs
  induction evs with
  | nil => intro edges k; rfl
  | cons ev evs ih =>
    intro edges k
    rw [List.foldl_cons, ih]
    by_cases hk : ev.key = k
    · rw [List.filter_cons_of_pos (by simp [hk])]
      rw [List.foldl_cons]
      have : alLookup (stepEdges edges ev) k = accumStep (alLookup edges k) ev := by
        unfold stepEdges accumStep
        rw [alLookup_alUpsert, if_pos hk, hk]
      rw [this]
    · rw [List.filter_cons_of_neg (by simp [hk])]
      have : alLookup (stepEdges edges ev) k = alLookup edges k := by
        unfold stepEdges
        rw [alLookup_alUpsert, if_neg hk]
      rw [this]

theorem accumStep_foldl_some (evs : List EdgeEvent) :
    ∀ (d : EdgeData),
      evs.foldl accumStep (some d) =
        some { amount := d.amount + (evs.map (·.amount)).sum
               count := d.count + evs.length
               dirs := (evs.filterMap
                 (fun ev => if ev.dir = "" then none else some ev.dir)).foldl
                   strSetInsert d.dirs } := by
  induction evs with
  | nil => intro d; simp
  | cons ev evs ih =>
    intro d
    rw [List.foldl_cons]
    have hstep : accumStep (some d) ev =
        some (accumOne d ev.amount ev.dir) := rfl
    rw [hstep, ih]
    refine congrArg some (EdgeData.ext ?_ ?_ ?_)
    · simp [accumOne]
      ring
    · simp [accumOne]
      omega
    · simp only [accumOne, List.filterMap_cons]
      by_cases hdir : ev.dir = ""
      · simp [hdir]
      · simp [hdir]

theorem accumStep_foldl_none (evs : List EdgeEvent) (hne : evs ≠ []) :
    evs.foldl accumStep none = some (edgeAgg evs) := by
  cases evs with
  | nil => exact absurd rfl hne
  | cons ev evs =>
    rw [List.foldl_cons]
    have hstep : accumStep none ev = some (accumOne emptyEdgeData ev.amount ev.dir) := rfl
    rw [hstep, accumStep_foldl_some]
    refine congrArg some (EdgeData.ext ?_ ?_ ?_)
    · simp [accumOne, emptyEdgeData, edgeAgg]
    · simp [accumOne, emptyEdgeData, edgeAgg]
      omega
    · simp only [accumOne, emptyEdgeData, edgeAgg, List.filterMap_cons]
      by_cases hdir : ev.dir = ""
      · simp [hdir]
      · simp [hdir]

theorem mem_keys_alUpsert [DecidableEq κ] (l : List (κ × α)) (k x : κ)
    (f : Option α → α) :
    x ∈ (alUpsert l k f).map Prod.fst ↔ x ∈ l.map Prod.fst ∨ x = k := by
  induction l with
  | nil => simp [alUpsert]
  | cons kv rest ih =>
    obtain ⟨k1, v1⟩ := kv
    by_cases h1 : k1 = k
    · subst h1
      simp [alUpsert]
      tauto
    · simp [alUpsert, h1, ih]
      tauto

theorem alUpsert_nodupkeys [DecidableEq κ] (l : List (κ × α)) (k : κ)
    (f : Option α → α) (h : (l.map Prod.fst).Nodup) :
    ((alUpsert l k f).map Prod.fst).Nodup := by
  induction l with
  | nil => simp [alUpsert]
  | cons kv rest ih =>
    obtain ⟨k1, v1⟩ := kv
    rw [List.map_cons, List.nodup_cons] at h
    obtain ⟨hk1, hrest⟩ := h
    by_cases h1 : k1 = k
    · subst h1
      rw [alUpsert, if_pos rfl, List.map_cons, List.nodup_cons]
      exact ⟨hk1, hrest⟩
    · rw [alUpsert, if_neg h1, List.map_cons, List.nodup_cons]
      refine ⟨fun hmem => ?_, ih hrest⟩
      rcases (mem_keys_alUpsert rest k k1 f).mp hmem with hm | hm
      · exact hk1 hm
      · exact h1 hm

theorem foldl_stepEdges_nodupkeys :
    ∀ (evs : List EdgeEvent) (edges : List ((JVal × JVal) × EdgeData)),
      ((edges.map Prod.fst).Nodup) →
      (((evs.foldl stepEdges edges).map Prod.fst).Nodup) := by
  intro evs
  induction evs with
  | nil => intro edges h; exact h
  | cons ev evs ih =>
    intro edges h
    rw [List.foldl_cons]
    exact ih _ (alUpsert_nodupkeys _ _ _ h)

theorem alLookup_of_mem [DecidableEq κ] {l : List (κ × α)} {k : κ} {d : α}
    (hnd : (l.map Prod.fst).Nodup) (hm : (k, d) ∈ l) : alLookup l k = some d := by
  induction l with
  | nil => cases hm
  | cons kv rest ih =>
    obtain ⟨k1, v1⟩ := kv
    simp only [List.map_cons, List.nodup_cons] at hnd
    obtain ⟨hk1, hrest⟩ := hnd
    rcases List.mem_cons.mp hm with h | h
    · injection h with h1 h2
      subst h1; subst h2
      simp [alLookup]
    · have hk : k1 ≠ k := by
        intro he
        subst he
        exact hk1 (List.mem_map.mpr ⟨(k1, d), h, rfl⟩)
      rw [alLookup, if_neg hk]
      exact ih hrest h

theorem mem_of_alLookup [DecidableEq κ] {l : List (κ × α)} {k : κ} {d : α}
    (h : alLookup l k = some d) : (k, d) ∈ l := by
  induction l with
  | nil => cases h
  | cons kv rest ih =>
    obtain ⟨k1, v1⟩ := kv
    by_cases hk : k1 = k
    · subst hk
      rw [alLookup, if_pos rfl] at h
      injection h with h
      exact List.mem_cons.mpr (Or.inl (by rw [h]))
    · rw [alLookup, if_neg hk] at h
      exact List.mem_cons.mpr (Or.inr (ih h))

theorem mem_strSetInsert (s : List String) (x y : String) :
    y ∈ strSetInsert s x ↔ y ∈ s ∨ y = x := by
  unfold strSetInsert
  by_cases hx : x ∈ s
  · simp only [if_pos hx]
    constructor
    · exact Or.inl
    · rintro (h | rfl)
      · exact h
      · exact hx
  · simp [if_neg hx]

theorem strSetInsert_nodup (s : List String) (x : String) (h : s.Nodup) :
    (strSetInsert s x).Nodup := by
  unfold strSetInsert
  by_cases hx : x ∈ s
  · simpa [if_pos hx] using h
  · rw [if_neg hx]
    simpa [List.nodup_append] using ⟨h, fun hmem => hx hmem⟩

theorem mem_foldl_strSetInsert :
    ∀ (l s : List String) (y : String),
      y ∈ l.foldl strSetInsert s ↔ y ∈ s ∨ y ∈ l := by
  intro l
  induction l with
  | nil => simp
  | cons x xs ih =>
    intro s y
    rw [List.foldl_cons, ih, mem_strSetInsert]
    simp only [List.mem_cons]
    tauto

theorem foldl_strSetInsert_nodup :
    ∀ (l s : List String), s.Nodup → (l.foldl strSetInsert s).Nodup := by
  intro l
  induction l with
  | nil => intro s h; exact h
  | cons x xs ih => intro s h; exact ih _ (strSetInsert_nodup s x h)

theorem insertionSort_foldl_strSetInsert (l : List String) :
    List.insertionSort (· ≤ ·) (l.foldl strSetInsert []) =
      List.insertionSort (· ≤ ·) l.dedup := by
  refine List.eq_of_perm_of_sorted ?_ (List.sorted_insertionSort _ _)
    (List.sorted_insertionSort _ _)
  refine List.Perm.trans (List.perm_insertionSort _ _) ?_
  refine List.Perm.trans ?_ (List.perm_insertionSort _ _).symm
  refine List.perm_of_nodup_nodup_toFinset_eq
    (foldl_strSetInsert_nodup l [] List.nodup_nil) l.nodup_dedup ?_
  ext y
  simp [List.mem_toFinset, mem_foldl_strSetInsert, List.mem_dedup]

/-- C4: whenever the network builder completes, its edges are exactly
the per-key aggregates of the eligible transactions: each transaction
with a truthy counterparty yields one edge event whose ordered key runs
counterparty to group on an incoming-synonym direction and group to
counterparty otherwise (`txEvent`); every emitted edge has a non-empty
contribution list for its (source, target) key, its amount is the sum
of the contributing amounts rounded to 2 decimals, its count is the
number of contributions, and its direction list is the lexicographically
sorted set of observed non-empty directions; conversely every event key
appears among the emitted edges. -/
theorem c4_network_edges (groups : List EnrichedGroup) (reported : List JVal)
    (hl : Bool) (resp : NetworkResponse)
    (h : buildNetworkPayload groups reported hl = .ok resp) :
    ∃ evs, edgeEvents groups = .ok evs ∧
      (∀ e ∈ resp.edges,
        (evs.filter (fun ev => ev.key = (e.source, e.target))) ≠ [] ∧
        e.amount = round2
          (((evs.filter (fun ev => ev.key = (e.source, e.target))).map (·.amount)).sum) ∧
        e.count = (evs.filter (fun ev => ev.key = (e.source, e.target))).length ∧
        e.directions = List.insertionSort (· ≤ ·)
          (((evs.filter (fun ev => ev.key = (e.source, e.target))).filterMap
            (fun ev => if ev.dir = "" then none else some ev.dir)).dedup)) ∧
      (∀ ev ∈ evs, ∃ e ∈ resp.edges, (e.source, e.target) = ev.key) := by
  unfold buildNetworkPayload at h
  cases hf : exFoldlM (bnpGroup hl reported) { nodes := [], edges := [] } groups with
  | error e => simp only [hf] at h; exact absurd h (by simp)
  | ok st =>
    simp only [hf] at h
    injection h with h
    obtain ⟨evs, hevs, hedges⟩ := bnp_fold_events hl reported groups _ st hf
    have hnd : (((evs.foldl stepEdges
        ([] : List ((JVal × JVal) × EdgeData))).map Prod.fst)).Nodup :=
      foldl_stepEdges_nodupkeys evs [] (by simp)
    refine ⟨evs, hevs, ?_, ?_⟩
    · intro e he
      rw [← h] at he
      simp only [] at he
      obtain ⟨kv, hkv, hemit⟩ := List.mem_map.mp he
      obtain ⟨k, d⟩ := kv
      rw [hedges] at hkv
      have hlook : alLookup (evs.foldl stepEdges []) k = some d :=
        alLookup_of_mem hnd hkv
      rw [lookup_foldl_stepEdges] at hlook
      cases hc : evs.filter (fun ev => ev.key = k) with
      | nil =>
        rw [hc] at hlook
        exact absurd hlook (by simp [alLookup])
      | cons c cs =>
        have hne : evs.filter (fun ev => ev.key = k) ≠ [] := by
          rw [hc]; simp
        have hnil : alLookup ([] : List ((JVal × JVal) × EdgeData)) k = none := rfl
        rw [hnil, accumStep_foldl_none _ hne] at hlook
        have hd : edgeAgg (evs.filter (fun ev => ev.key = k)) = d :=
          Option.some.inj hlook
        subst hemit
        simp only [emitEdge, Prod.mk.eta]
        rw [← hd]
        refine ⟨hne, rfl, rfl, ?_⟩
        exact insertionSort_foldl_strSetInsert _
    · intro ev hev
      have hevk : ev ∈ evs.filter (fun x => x.key = ev.key) :=
        List.mem_filter.mpr ⟨hev, by simp⟩
      have hne : evs.filter (fun x => x.key = ev.key) ≠ [] := by
        intro hnil
        rw [hnil] at hevk
        cases hevk
      have hlook : alLookup (evs.foldl stepEdges []) ev.key =
          some (edgeAgg (evs.filter (fun x => x.key = ev.key))) := by
        rw [lookup_foldl_stepEdges]
        have : alLookup ([] : List ((JVal × JVal) × EdgeData)) ev.key = none := rfl
        rw [this]
        exact accumStep_foldl_none _ hne
      have hmem := mem_of_alLookup hlook
      refine ⟨emitEdge (ev.key, edgeAgg (evs.filter (fun x => x.key = ev.key))),
        ?_, by simp [emitEdge]⟩
      rw [← h]
      exact List.mem_map.mpr ⟨_, hedges ▸ hmem, rfl⟩

set_option maxRecDepth 100000 in
set_option maxHeartbeats 1000000 in
unseal Nat.gcd Rat.add Rat.mul Rat.inv Rat.sub in
/-- Witness for C4 at a concrete group with merged, lowered and unknown
directions. -/
theorem c4_witness :
    buildNetworkPayload [gNetW] [] true = .ok respW ∧
    (∃ evs, edgeEvents [gNetW] = .ok evs ∧
      (∀ e ∈ respW.edges,
        (evs.filter (fun ev => ev.key = (e.source, e.target))) ≠ [] ∧
        e.amount = round2
          (((evs.filter (fun ev => ev.key = (e.source, e.target))).map (·.amount)).sum) ∧
        e.count = (evs.filter (fun ev => ev.key = (e.source, e.target))).length ∧
        e.directions = List.insertionSort (· ≤ ·)
          (((evs.filter (fun ev => ev.key = (e.source, e.target))).filterMap
            (fun ev => if ev.dir = "" then none else some ev.dir)).dedup)) ∧
      (∀ ev ∈ evs, ∃ e ∈ respW.edges, (e.source, e.target) = ev.key)) :=
  ⟨by decide, c4_network_edges [gNetW] [] true respW (by decide)⟩

end AmlUi
